import Mathlib

/-!
SpendLite (script.js): a shallow embedding

The core of `script.js` is embedded function by function: column detection,
amount parsing, date parsing, rule parsing, keyword matching, categorisation,
category totals and percentages, the month and category filters, page
clamping and the pager window, and the load operation on the session state.

Modelling conventions.

* A JavaScript string is a list of characters (`Str`).  Positions and lengths
  count characters.
* `trim` and the regular-expression class `\s` use the ECMAScript whitespace
  set.  `toLowerCase` / `toUpperCase` are modelled on the ASCII letters; every
  other character is left unchanged.
* A JavaScript number is `JsNum`: either `NaN` or a finite value, kept as an
  exact rational.  Rounding to binary floating point and overflow to
  `Infinity` are outside the model.
* `undefined` / `null` are `Option.none`.
* The CSV tokenizer (`Papa.parse`) and the host's `Date` (the generic
  `new Date(string)` parser, `getFullYear`, `getMonth`) are external; they
  enter as arguments.
* Global variables and the page elements the claims speak of are fields of an
  explicit `Session` state; other rendered output is not modelled.
-/

namespace SpendLite

/-- A JavaScript string, as its list of characters. -/
abbrev Str := List Char

/-! ## String primitives of the host language -/

/-- ECMAScript `WhiteSpace` and `LineTerminator` code points: what `trim`
strips and what `\s` matches. -/
def isWhitespace (c : Char) : Bool :=
  c.toNat ∈ [9, 10, 11, 12, 13, 32, 160, 5760, 8192, 8193, 8194, 8195, 8196, 8197,
    8198, 8199, 8200, 8201, 8202, 8232, 8233, 8239, 8287, 12288, 65279]

/-- The class `\d`: the ten ASCII digits. -/
def isDigit (c : Char) : Bool := decide (48 ≤ c.toNat ∧ c.toNat ≤ 57)

/-- Value of an ASCII digit. -/
def digitVal (c : Char) : Nat := c.toNat - 48

/-- `String.prototype.trim`. -/
def trim (s : Str) : Str := (s.dropWhile isWhitespace).rdropWhile isWhitespace

/-- `String.prototype.toLowerCase` (ASCII letters). -/
def toLowerCase (s : Str) : Str := s.map Char.toLower

/-- `String.prototype.toUpperCase` (ASCII letters). -/
def toUpperCase (s : Str) : Str := s.map Char.toUpper

/-- Value of a string of decimal digits, most significant first. -/
def digitsToNat (ds : Str) : Nat := ds.foldl (fun acc c => 10 * acc + digitVal c) 0

/-- The scan of `String.prototype.indexOf`: the first of the `fuel` indices
`i, i + 1, ...` at which `p` occurs in `d`. -/
def indexOfScan (d p : Str) : Nat → Nat → Option Nat
  | 0, _ => none
  | fuel + 1, i => if p.isPrefixOf (d.drop i) then some i else indexOfScan d p fuel (i + 1)

/-- `String.prototype.indexOf(p, pos)`: the least index `i` with
`min pos d.length ≤ i ≤ d.length` at which `p` occurs in `d`; `none` is `-1`. -/
def indexOf (d p : Str) (pos : Nat) : Option Nat :=
  let start := min pos d.length
  indexOfScan d p (d.length + 1 - start) start

/-- `Array.prototype.indexOf(x)`: index of the first element equal to `x`;
`none` is `-1`. -/
def arrayIndexOf : List Str → Str → Option Nat
  | [], _ => none
  | y :: ys, x => if y = x then some 0 else (arrayIndexOf ys x).map (fun i => i + 1)

/-! ## Numbers -/

/-- A JavaScript number: `NaN` or a finite value. -/
inductive JsNum where
  | nan : JsNum
  | fin (q : ℚ) : JsNum
  deriving DecidableEq

/-- The global `isNaN` on a number. -/
def isNaN : JsNum → Bool
  | JsNum.nan => true
  | JsNum.fin _ => false

/-- The expression `x || 0` for a number `x`: `NaN` and `0` are falsy and give
`0`, every other number is kept. -/
def orZero : JsNum → ℚ
  | JsNum.nan => 0
  | JsNum.fin q => if q = 0 then 0 else q

/-- `Number(s)` for a string `s` made only of digits, `-` and `.` (what the
filters of `parseAmount` leave).  The empty string is `0`; otherwise the
string must be an optional `-` followed by `digits`, `digits.`, `.digits` or
`digits.digits`; anything else is `NaN`. -/
def jsNumber (s : Str) : JsNum :=
  if s = [] then JsNum.fin 0 else
  let neg : Bool := s.head? = some '-'
  let body : Str := if neg then s.tail else s
  let sign : ℚ := if neg then -1 else 1
  let ip := body.takeWhile isDigit
  match body.dropWhile isDigit with
  | [] => if ip = [] then JsNum.nan else JsNum.fin (sign * (digitsToNat ip : ℚ))
  | c :: frac =>
    if c = '.' ∧ frac.all isDigit = true ∧ (ip ≠ [] ∨ frac ≠ []) then
      JsNum.fin (sign * ((digitsToNat ip : ℚ) + (digitsToNat frac : ℚ) / (10 : ℚ) ^ frac.length))
    else JsNum.nan

/-- Source `parseAmount(s)`, script.js lines 31-36. -/
def parseAmount (s : Option Str) : JsNum :=
  match s with
  | none => JsNum.fin 0
  | some s =>
    let s1 := s.filter (fun c => isDigit c || c == '-' || c == ',' || c == '.')
    let s2 := s1.filter (fun c => c != ',')
    JsNum.fin (orZero (jsNumber s2))

/-! ## Column detection -/

/-- A column map `{DATE, DEBIT, LONGDESC}`. -/
structure ColumnMap where
  DATE : Nat
  DEBIT : Nat
  LONGDESC : Nat
  deriving DecidableEq, Repr

/-- Source `FALLBACK_COL`, script.js line 10. -/
def FALLBACK_COL : ColumnMap := ⟨2, 5, 9⟩

/-- The inner function `idx` of `detectColumns`: the candidates are tried in
their listed order and the first one present in the header decides. -/
def idx (header : List Str) : List Str → Option Nat
  | [] => none
  | cand :: rest =>
    match arrayIndexOf header cand with
    | some i => some i
    | none => idx header rest

def dateCandidates : List Str :=
  ["effective date".toList, "date".toList, "transaction date".toList]

def debitCandidates : List Str :=
  ["debit".toList, "amount".toList, "debit amount".toList]

def longDescCandidates : List Str :=
  ["long description".toList, "description".toList, "narrative".toList, "details".toList]

/-- Source `detectColumns(firstRow)`, script.js lines 12-29. -/
def detectColumns (firstRow : Option (List Str)) : ColumnMap :=
  let header := (firstRow.getD []).map (fun c => toLowerCase (trim c))
  match idx header dateCandidates, idx header debitCandidates, idx header longDescCandidates with
  | some d, some a, some l => ⟨d, a, l⟩
  | _, _, _ => FALLBACK_COL

/-! ## Transactions and CSV loading -/

/-- A transaction record; `category` is unset until `categorise` runs. -/
structure Transaction where
  date : Str
  amount : JsNum
  description : Str
  category : Option Str
  deriving DecidableEq

/-- The expression `isNaN(parseAmount(rows[0][COL.DEBIT])) ? 1 : 0` of
`loadCsvText`, script.js line 81. -/
def startIdx (rows : List (List Str)) (COL : ColumnMap) : Nat :=
  if isNaN (parseAmount ((rows.head?.getD [])[COL.DEBIT]?)) then 1 else 0

/-- Body of the row loop of `loadCsvText`, script.js lines 85-91: the
transaction built from one row, or `none` when the row is skipped. -/
def rowToTxn (COL : ColumnMap) (r : List Str) : Option Transaction :=
  if r.length < max (max COL.DATE COL.DEBIT) COL.LONGDESC + 1 then none else
  let effectiveDate := (r[COL.DATE]?).getD []
  let debit := parseAmount (r[COL.DEBIT]?)
  let longDesc := trim ((r[COL.LONGDESC]?).getD [])
  if effectiveDate = [] ∧ longDesc = [] then none
  else some ⟨effectiveDate, debit, longDesc, none⟩

/-- The transaction list `loadCsvText` builds from the tokenized rows,
script.js lines 78-92; an empty row list raises `No rows found`. -/
def loadRows (rows : List (List Str)) : Except String (List Transaction) :=
  if rows.length = 0 then Except.error "No rows found" else
  let COL := detectColumns rows.head?
  Except.ok ((rows.drop (startIdx rows COL)).filterMap (rowToTxn COL))

/-! ## Date parsing -/

/-- A date object, recorded by the local-time fields it is constructed from:
`new Date(year, monthIndex, day)`.  `monthIndex` is zero-based.  Calendar
normalisation of out-of-range fields is done by the host and is not part of
this record. -/
structure JsDate where
  year : Int
  monthIndex : Int
  day : Int
  deriving DecidableEq, Repr

/-- A maximal run of ASCII digits of length `lo..hi` at the start of `s`,
with the remainder.  In every pattern below a digit group is followed by a
non-digit or the end of the pattern, so a group can only match the maximal
run. -/
def digitRun (lo hi : Nat) (s : Str) : Option (Str × Str) :=
  let ds := s.takeWhile isDigit
  if lo ≤ ds.length ∧ ds.length ≤ hi then some (ds, s.dropWhile isDigit) else none

/-- The class `[\/\-]`. -/
def isDateSep (c : Char) : Bool := c == '/' || c == '-'

/-- The match `m1` of `parseDateSmart`, script.js line 42:
`/^(\d{1,2})[\/\-](\d{1,2})[\/\-](\d{4})$/`, giving the three groups as
numbers `(a, b, y)`. -/
def matchNumericDate (t : Str) : Option (Nat × Nat × Nat) :=
  match digitRun 1 2 t with
  | none => none
  | some (a, r1) =>
    match r1 with
    | [] => none
    | c1 :: r2 =>
      if isDateSep c1 then
        match digitRun 1 2 r2 with
        | none => none
        | some (b, r3) =>
          match r3 with
          | [] => none
          | c2 :: r4 =>
            if isDateSep c2 then
              match digitRun 4 4 r4 with
              | none => none
              | some (y, r5) =>
                if r5 = [] then some (digitsToNat a, digitsToNat b, digitsToNat y) else none
            else none
      else none

/-- Case-insensitive match of the ASCII word `w` at the start of `s`; the
remainder on success. -/
def stripWordCI (w s : Str) : Option Str :=
  if toLowerCase (s.take w.length) = toLowerCase w then some (s.drop w.length) else none

/-- First word of `ws` that matches at the start of `s` (an alternation
`(w1|w2|...)` under the `i` flag), with its index and the remainder. -/
def stripAnyCI : List Str → Nat → Str → Option (Nat × Str)
  | [], _, _ => none
  | w :: ws, i, s =>
    match stripWordCI w s with
    | some r => some (i, r)
    | none => stripAnyCI ws (i + 1) s

/-- The replacement of script.js line 49: delete a leading
`/^\d{1,2}:\d{2}\s*(am|pm)\s*/i`, or leave the string as it is. -/
def stripTime (s : Str) : Str :=
  match digitRun 1 2 s with
  | none => s
  | some (_, r1) =>
    match r1 with
    | ':' :: r2 =>
      if (r2.take 2).length = 2 ∧ (r2.take 2).all isDigit = true then
        match stripAnyCI ["am".toList, "pm".toList] 0 ((r2.drop 2).dropWhile isWhitespace) with
        | some (_, r3) => r3.dropWhile isWhitespace
        | none => s
      else s
    | _ => s

def weekdayNames : List Str :=
  ["Mon".toList, "Tue".toList, "Wed".toList, "Thu".toList, "Fri".toList, "Sat".toList,
    "Sun".toList]

def monthNames : List Str :=
  ["January".toList, "February".toList, "March".toList, "April".toList, "May".toList,
    "June".toList, "July".toList, "August".toList, "September".toList, "October".toList,
    "November".toList, "December".toList]

/-- The match `m2` of `parseDateSmart`, script.js line 50: an optional weekday
abbreviation, optional whitespace, a day of one or two digits, whitespace, a
full month name, an optional comma, whitespace and four year digits, all at
the start of the string.  The result is `(day, month index, year)`. -/
def matchLongDate (s2 : Str) : Option (Nat × Nat × Nat) :=
  let afterWeekday : Str :=
    match stripAnyCI weekdayNames 0 s2 with
    | some (_, r) => r
    | none => s2
  match digitRun 1 2 (afterWeekday.dropWhile isWhitespace) with
  | none => none
  | some (d, r1) =>
    if r1.head?.any isWhitespace then
      match stripAnyCI monthNames 0 (r1.dropWhile isWhitespace) with
      | none => none
      | some (mo, r2) =>
        let r3 := if r2.head? = some ',' then r2.tail else r2
        if r3.head?.any isWhitespace then
          let r4 := r3.dropWhile isWhitespace
          if (r4.take 4).length = 4 ∧ (r4.take 4).all isDigit = true then
            some (digitsToNat d, mo, digitsToNat (r4.take 4))
          else none
        else none
    else none

/-- Source `parseDateSmart(s)`, script.js lines 38-57.  `genericDate` is the
host's `new Date(s)`: `none` when the resulting date is invalid. -/
def parseDateSmart (genericDate : Str → Option JsDate) (s : Str) : Option JsDate :=
  if s = [] then none else
  match genericDate s with
  | some d => some d
  | none =>
    match matchNumericDate (trim s) with
    | some (a, b, y) =>
      let day := if a > 12 then a else (if b > 12 then b else a)
      let month := if a > 12 then b else a
      some ⟨(y : Int), (month : Int) - 1, (day : Int)⟩
    | none =>
      match matchLongDate (stripTime s) with
      | some (day, mo, y) => some ⟨(y : Int), (mo : Int), (day : Int)⟩
      | none => none

/-! ## Rules -/

/-- A categorisation rule. -/
structure Rule where
  keyword : Str
  category : Str
  deriving DecidableEq, Repr

/-- Prepend a character to the first piece of a split. -/
def consHead (c : Char) : List Str → List Str
  | [] => [[c]]
  | h :: t => (c :: h) :: t

/-- `text.split(/\r?\n/)`. -/
def splitLines : Str → List Str
  | [] => [[]]
  | '\r' :: '\n' :: rest => [] :: splitLines rest
  | '\n' :: rest => [] :: splitLines rest
  | c :: rest => consHead c (splitLines rest)

/-- `t.split(/=>/i)`: the pieces between successive occurrences of `=>`,
found left to right. -/
def splitArrow : Str → List Str
  | [] => [[]]
  | '=' :: '>' :: rest => [] :: splitArrow rest
  | c :: rest => consHead c (splitArrow rest)

/-- Body of the line loop of `parseRules`, script.js lines 107-114: the rule
pushed for one line, or `none` when the line pushes nothing. -/
def ruleOfLine (line : Str) : Option Rule :=
  let t := trim line
  if t = [] ∨ t.head? = some '#' then none else
  let parts := splitArrow t
  if parts.length ≥ 2 then
    let keyword := toLowerCase (trim (parts[0]?.getD []))
    let category := toUpperCase (trim (parts[1]?.getD []))
    if keyword ≠ [] ∧ category ≠ [] then some ⟨keyword, category⟩ else none
  else none

/-- One iteration of the line loop of `parseRules`: a valid line pushes its
rule to the end of `rules`. -/
def pushRule (rules : List Rule) (line : Str) : List Rule :=
  match ruleOfLine line with
  | some r => rules ++ [r]
  | none => rules

/-- Source `parseRules(text)`, script.js lines 103-117. -/
def parseRules (text : Str) : List Rule :=
  (splitLines text).foldl pushRule []

/-! ## Keyword matching -/

/-- `k.split(/\s+/)`; `afterWs` records that the previous character was
whitespace, so that a run of whitespace is one separator. -/
def splitWhitespace : Str → Bool → List Str
  | [], _ => [[]]
  | c :: rest, afterWs =>
    if isWhitespace c then
      (if afterWs then splitWhitespace rest true else [] :: splitWhitespace rest true)
    else consHead c (splitWhitespace rest false)

/-- The tokens of a keyword: `String(k).split(/\s+/).filter(Boolean)`. -/
def keywordParts (k : Str) : List Str :=
  (splitWhitespace k false).filter (fun p => p ≠ [])

/-- The cursor loop of `matchesKeyword`, script.js lines 123-129. -/
def matchLoop (descLower : Str) : List Str → Nat → Bool
  | [], _ => true
  | p :: rest, pos =>
    match indexOf descLower p pos with
    | none => false
    | some i => matchLoop descLower rest (i + p.length)

/-- Source `matchesKeyword(descLower, keywordLower)`, script.js lines 120-130. -/
def matchesKeyword (descLower keywordLower : Str) : Bool :=
  if keywordLower = [] then false
  else matchLoop descLower (keywordParts keywordLower) 0

/-! ## Categorisation -/

def UNCATEGORISED : Str := "UNCATEGORISED".toList

/-- The inner rule loop of `categorise`, script.js lines 135-138: the first
rule that matches sets `matched` and breaks. -/
def scanRules (descLower : Str) : List Rule → Str
  | [] => UNCATEGORISED
  | r :: rest =>
    if matchesKeyword descLower r.keyword then r.category else scanRules descLower rest

/-- Source `categorise(txns, rules)`, script.js lines 132-142: every
transaction gets its `category` field overwritten. -/
def categorise (txns : List Transaction) (rules : List Rule) : List Transaction :=
  txns.map (fun t => { t with category := some (scanRules (toLowerCase t.description) rules) })

/-! ## Category totals -/

/-- A `Map` from category to total, in insertion order. -/
abbrev CatMap := List (Str × ℚ)

/-- `Map.prototype.get`. -/
def mapGet : CatMap → Str → Option ℚ
  | [], _ => none
  | (k1, v1) :: m, k => if k1 = k then some v1 else mapGet m k

/-- `Map.prototype.set`: an existing key keeps its place, a new key goes to
the end. -/
def mapSet : CatMap → Str → ℚ → CatMap
  | [], k, v => [(k, v)]
  | (k1, v1) :: m, k, v => if k1 = k then (k, v) :: m else (k1, v1) :: mapSet m k v

/-- The expression `(t.category || 'UNCATEGORISED').toUpperCase()`: an unset
or empty category counts as `UNCATEGORISED`. -/
def catKey (t : Transaction) : Str :=
  toUpperCase (match t.category with
    | none => UNCATEGORISED
    | some c => if c = [] then UNCATEGORISED else c)

/-- The expression `Number(t.amount) || 0`. -/
def amountOf (t : Transaction) : ℚ := orZero t.amount

/-- One iteration of the accumulation loop of `computeCategoryTotals`,
script.js lines 147-148. -/
def addTxn (byCat : CatMap) (t : Transaction) : CatMap :=
  mapSet byCat (catKey t) ((mapGet byCat (catKey t)).getD 0 + amountOf t)

/-- The comparator `(a, b) => b[1] - a[1]` is not positive: `a` may stay
before `b`. -/
def totalGe (a b : Str × ℚ) : Prop := b.2 ≤ a.2

instance : DecidableRel totalGe := fun a b => inferInstanceAs (Decidable (b.2 ≤ a.2))

instance : IsTotal (Str × ℚ) totalGe := ⟨fun a b => le_total b.2 a.2⟩

instance : IsTrans (Str × ℚ) totalGe := ⟨fun _ _ _ hab hbc => le_trans hbc hab⟩

/-- Result of `computeCategoryTotals`. -/
structure CategoryTotals where
  rows : List (Str × ℚ)
  grand : ℚ

/-- Source `computeCategoryTotals(txns)`, script.js lines 144-153.
`Array.prototype.sort` is stable; the stable sort is written as an insertion
sort. -/
def computeCategoryTotals (txns : List Transaction) : CategoryTotals :=
  let byCat := txns.foldl addTxn []
  let rows := byCat.insertionSort totalGe
  let grand := rows.foldl (fun a r => a + r.2) 0
  ⟨rows, grand⟩

/-! ## Paging -/

def PAGE_SIZE : Nat := 10

/-- The expression `Math.max(1, Math.ceil(filtered.length / PAGE_SIZE))`,
script.js line 196. -/
def totalPages (filteredLength : Nat) : Int :=
  max 1 (Int.ceil ((filteredLength : ℚ) / (PAGE_SIZE : ℚ)))

/-- The two clamping statements of `renderTransactionsTable`, script.js lines
197-198, on `window.CURRENT_PAGE` (`none` is `undefined`): the new value of
`window.CURRENT_PAGE`. -/
def clampPage (CURRENT_PAGE : Option Int) (totalPages : Int) : Int :=
  let p1 : Option Int :=
    match CURRENT_PAGE with
    | some p => if p > totalPages then some totalPages else some p
    | none => none
  match p1 with
  | none => 1
  | some p => if p = 0 ∨ p < 1 then 1 else p

/-- What `renderPager` puts on the page: the four navigation buttons with
their target page and `disabled` flag, the numbered buttons, and the page
marked active. -/
structure Pager where
  firstPage : Int
  firstDisabled : Bool
  prevPage : Int
  prevDisabled : Bool
  numbered : List Int
  active : Int
  nextPage : Int
  nextDisabled : Bool
  lastPage : Int
  lastDisabled : Bool
  deriving DecidableEq, Repr

/-- The expression `x || 1` for a page number that may be missing. -/
def orOne : Option Int → Int
  | none => 1
  | some p => if p = 0 then 1 else p

/-- Source `renderPager(totalPages)`, script.js lines 211-225, reading
`window.CURRENT_PAGE`.  The loop `for (p = start; p <= end; p++)` gives the
numbered buttons `start, start + 1, ..., end`. -/
def renderPager (totalPages : Int) (CURRENT_PAGE : Option Int) : Pager :=
  let pages := orOne (some totalPages)
  let cur := orOne CURRENT_PAGE
  let windowSize : Int := 5
  let start0 := max 1 (cur - windowSize / 2)
  let endPage := min pages (start0 + windowSize - 1)
  let start := max 1 (min start0 (endPage - windowSize + 1))
  { firstPage := 1
    firstDisabled := decide (cur = 1)
    prevPage := max 1 (cur - 1)
    prevDisabled := decide (cur = 1)
    numbered := (List.range (endPage - start + 1).toNat).map (fun k => start + (k : Int))
    active := cur
    nextPage := min pages (cur + 1)
    nextDisabled := decide (cur = pages)
    lastPage := pages
    lastDisabled := decide (cur = pages) }

/-! ## Filters -/

/-- The host's `Date`: the generic parser `new Date(s)` (`none` when the
resulting date is invalid) and the local-time getters used by `yyyymm`. -/
structure DateHost where
  parse : Str → Option JsDate
  getFullYear : JsDate → Int
  getMonth : JsDate → Int

/-- `String(n)` for an integer `n`. -/
def intToStr (n : Int) : Str :=
  if n < 0 then '-' :: (Nat.repr (-n).toNat).toList else (Nat.repr n.toNat).toList

/-- `String.prototype.padStart(2, '0')`. -/
def padStart2 (s : Str) : Str := List.replicate (2 - s.length) '0' ++ s

/-- Source `yyyymm(d)`, script.js line 58. -/
def yyyymm (host : DateHost) (d : JsDate) : Str :=
  intToStr (host.getFullYear d) ++ '-' :: padStart2 (intToStr (host.getMonth d + 1))

/-- The filter callback of `monthFilteredTxns`, script.js lines 188-191:
`d && yyyymm(d) === MONTH_FILTER`. -/
def inMonth (host : DateHost) (MONTH_FILTER : Str) (t : Transaction) : Bool :=
  match parseDateSmart host.parse t.date with
  | none => false
  | some d => decide (yyyymm host d = MONTH_FILTER)

/-- Source `monthFilteredTxns()`, script.js lines 186-192; an empty
`MONTH_FILTER` is no filter. -/
def monthFilteredTxns (host : DateHost) (MONTH_FILTER : Str)
    (CURRENT_TXNS : List Transaction) : List Transaction :=
  if MONTH_FILTER = [] then CURRENT_TXNS
  else CURRENT_TXNS.filter (inMonth host MONTH_FILTER)

/-- Source `getFilteredTxns(txns)`, script.js line 172; a `null` or empty
`CURRENT_FILTER` is no filter. -/
def getFilteredTxns (CURRENT_FILTER : Option Str) (txns : List Transaction) :
    List Transaction :=
  match CURRENT_FILTER with
  | none => txns
  | some f => if f = [] then txns else txns.filter (fun t => decide (catKey t = f))

/-! ## Percentages -/

/-- The expression `grand ? (total/grand*100) : 0` of `renderCategoryTotals`
(script.js line 160) and `exportTotals` (line 276): the division is guarded
by the test on `grand`. -/
def percentOf (grand total : ℚ) : ℚ :=
  if grand = 0 then 0 else total / grand * 100

/-! ## Session state and loading -/

/-- The session state: the global variables of script.js, the text of the
`loadStatus` element and the value of the `rulesBox` input.  The rendered
tables, banners and dropdown of the page are not part of the model. -/
structure Session where
  CURRENT_TXNS : List Transaction
  CURRENT_RULES : List Rule
  CURRENT_FILTER : Option Str
  MONTH_FILTER : Str
  CURRENT_PAGE : Option Int
  loadStatus : Str
  rulesBox : Str
  deriving DecidableEq

/-- The delimiter choice of `loadCsvText`, script.js lines 72-75. -/
def detectDelimiter (csvText : Str) : Char :=
  let head := csvText.take 2000
  let comma := head.count ','
  let semi := head.count ';'
  if (semi : ℚ) > (comma : ℚ) * (12 / 10) then ';' else ','

/-- One transaction after `categorise` has run on it. -/
def categoriseTxn (rules : List Rule) (t : Transaction) : Transaction :=
  { t with category := some (scanRules (toLowerCase t.description) rules) }

/-- Source `applyRulesAndRender()`, script.js lines 251-259, on the state.
`categorise` mutates in place the transactions that `monthFilteredTxns`
returns, which are objects of `CURRENT_TXNS`; `renderTransactionsTable`
clamps `CURRENT_PAGE`. -/
def applyRulesAndRender (host : DateHost) (s : Session) : Session :=
  let rules := parseRules s.rulesBox
  let txns := s.CURRENT_TXNS.map (fun t =>
    if s.MONTH_FILTER = [] ∨ inMonth host s.MONTH_FILTER t = true then categoriseTxn rules t
    else t)
  let filtered := getFilteredTxns s.CURRENT_FILTER (monthFilteredTxns host s.MONTH_FILTER txns)
  { s with
    CURRENT_RULES := rules
    CURRENT_TXNS := txns
    CURRENT_PAGE := some (clampPage s.CURRENT_PAGE (totalPages filtered.length)) }

/-- `JSON.stringify(COL)`. -/
def columnsJson (COL : ColumnMap) : Str :=
  "\x7b\"DATE\":".toList ++ (Nat.repr COL.DATE).toList ++ ",\"DEBIT\":".toList ++
    (Nat.repr COL.DEBIT).toList ++ ",\"LONGDESC\":".toList ++ (Nat.repr COL.LONGDESC).toList ++
    "\x7d".toList

/-- The status text of a successful load, script.js line 96. -/
def loadedStatus (n : Nat) (delimiter : Char) (COL : ColumnMap) : Str :=
  "Loaded ".toList ++ (Nat.repr n).toList ++ " transactions · delimiter=\"".toList ++
    [delimiter] ++ "\" · columns = ".toList ++ columnsJson COL

/-- Source `loadCsvText(csvText)`, script.js lines 68-101: the new state and
the returned `CURRENT_TXNS`.  `tokenize text delimiter` is
`Papa.parse(text, ...).data`. -/
def loadCsvText (tokenize : Str → Char → List (List Str)) (host : DateHost) (csvText : Str)
    (s : Session) : Session × List Transaction :=
  let delimiter := detectDelimiter csvText
  let rows := tokenize (trim csvText) delimiter
  match loadRows rows with
  | Except.error e =>
    ({ s with loadStatus := "Load failed: ".toList ++ e.toList }, s.CURRENT_TXNS)
  | Except.ok txns =>
    let s1 := applyRulesAndRender host { s with CURRENT_TXNS := txns }
    let s2 := { s1 with loadStatus := loadedStatus txns.length delimiter (detectColumns rows.head?) }
    (s2, s2.CURRENT_TXNS)

/-! ## Specification-level notions -/

/-- `p` occurs in `d` at position `i`: the `p.length` characters of `d` from
index `i` on exist and spell `p`. -/
def occursAt (d p : Str) (i : Nat) : Prop :=
  i + p.length ≤ d.length ∧ (d.drop i).take p.length = p

instance (d p : Str) (i : Nat) : Decidable (occursAt d p i) :=
  inferInstanceAs (Decidable (_ ∧ _))

/-- The text before the first `=>` of `t` and the text after it; `none` when
`t` contains no `=>`. -/
def cutAtArrow : Str → Option (Str × Str)
  | [] => none
  | '=' :: '>' :: rest => some ([], rest)
  | c :: rest =>
    match cutAtArrow rest with
    | some (before, after) => some (c :: before, after)
    | none => none

/-- Reference rule of one line, in the words of the specification: a line
that, trimmed, is non-blank, does not start with `#` and contains the
separator gives the rule whose keyword is the portion before the separator
(trimmed, lower-cased) and whose category is the portion after it (trimmed,
upper-cased), unless one of the two is empty. -/
def ruleOfLineSpec (line : Str) : Option Rule :=
  let t := trim line
  if t = [] then none
  else if t.head? = some '#' then none
  else
    match cutAtArrow t with
    | none => none
    | some (before, after) =>
      let keyword := toLowerCase (trim before)
      let category := toUpperCase (trim after)
      if keyword = [] ∨ category = [] then none else some ⟨keyword, category⟩

/-- Reference definition of `parseRules`, in the words of the specification:
one rule per valid line, in line order. -/
def parseRulesSpec (text : Str) : List Rule :=
  (splitLines text).filterMap ruleOfLineSpec

/-- The text of `after` up to its first `=>`, or all of it when it has none. -/
def upToArrow (after : Str) : Str :=
  match cutAtArrow after with
  | none => after
  | some (segment, _) => segment

/-- Reference rule of one line with the category cut at the next separator:
as `ruleOfLineSpec`, but the category is the text between the first `=>` and
the next `=>` (or the end of the line). -/
def ruleOfLineCut (line : Str) : Option Rule :=
  let t := trim line
  if t = [] then none
  else if t.head? = some '#' then none
  else
    match cutAtArrow t with
    | none => none
    | some (before, after) =>
      let keyword := toLowerCase (trim before)
      let category := toUpperCase (trim (upToArrow after))
      if keyword = [] ∨ category = [] then none else some ⟨keyword, category⟩

/-- Reference definition of `parseRules` with the category cut at the next
separator. -/
def parseRulesCut (text : Str) : List Rule :=
  (splitLines text).filterMap ruleOfLineCut

/-- Positions `ps` place the tokens `ts` in `d` from cursor `lo` on: each
token occurs at its position, the first position is at least `lo`, and each
further position is at or after the end of the previous occurrence. -/
def Placed (d : Str) : List Str → List Nat → Nat → Prop
  | [], [], _ => True
  | t :: ts, p :: ps, lo => lo ≤ p ∧ occursAt d t p ∧ Placed d ts ps (p + t.length)
  | _, _, _ => False

/-- A transaction with its category field unset: what is left of it when the
prior category is disregarded. -/
def clearCategory (t : Transaction) : Transaction := { t with category := none }

/-- The normalized header of `detectColumns`: every cell trimmed and
lower-cased; an absent first row is the empty header. -/
def headerOf (firstRow : Option (List Str)) : List Str :=
  (firstRow.getD []).map (fun c => toLowerCase (trim c))

/-- A target field resolves in `header`: some header cell equals one of the
field's candidate names. -/
def Resolves (header cands : List Str) : Prop := ∃ cell ∈ header, cell ∈ cands

instance (header cands : List Str) : Decidable (Resolves header cands) :=
  inferInstanceAs (Decidable (∃ cell ∈ header, cell ∈ cands))

/-- Index of the first (lowest-index) header cell that equals any of the
candidate names, in the words of the specification. -/
def firstMatchingCell (header cands : List Str) : Option Nat :=
  header.findIdx? (fun cell => decide (cell ∈ cands))

/-- Index `i` is picked by candidate priority: it is the first position in
`header` of the first name of `cands`, in listed order, that occurs in
`header` at all. -/
def PickedByPriority (header cands : List Str) (i : Nat) : Prop :=
  ∃ (k : Nat) (c : Str), cands[k]? = some c ∧
    (∀ (j : Nat) (c2 : Str), j < k → cands[j]? = some c2 → c2 ∉ header) ∧
    header[i]? = some c ∧ ∀ j : Nat, j < i → header[j]? ≠ some c

/-- The characters of `s` that `parseAmount` retains: what is left after
deleting every character other than digits, `-` and `.`. -/
def retained (s : Str) : Str := s.filter (fun c => isDigit c || c == '-' || c == '.')

/-- A decimal numeral: only digits and `.`, at most one `.`, at least one
digit. -/
def IsDecimalNumeral (body : Str) : Prop :=
  (∀ c ∈ body, isDigit c = true ∨ c = '.') ∧ body.count '.' ≤ 1 ∧ ∃ c ∈ body, isDigit c = true

instance (body : Str) : Decidable (IsDecimalNumeral body) :=
  inferInstanceAs (Decidable (_ ∧ _ ∧ _))

/-- A valid numeric literal over the retained characters: an optional leading
`-` followed by a decimal numeral. -/
def IsAmountLiteral (r : Str) : Prop :=
  match r with
  | '-' :: body => IsDecimalNumeral body
  | _ => IsDecimalNumeral r

instance (r : Str) : Decidable (IsAmountLiteral r) := by
  unfold IsAmountLiteral
  split <;> infer_instance

/-- Value of a decimal numeral: the number spelled by all its digits, with
the decimal point shifted left by the number of digits after the `.`. -/
def numeralValue (body : Str) : ℚ :=
  (digitsToNat (body.filter isDigit) : ℚ) /
    (10 : ℚ) ^ ((body.dropWhile (fun c => c != '.')).tail.length)

/-- Value of a numeric literal: the value of its numeral, negated when the
leading `-` is present. -/
def literalValue (r : Str) : ℚ :=
  match r with
  | '-' :: body => - numeralValue body
  | _ => numeralValue r

/-- A transaction is in view under the month filter `mf` (`[]` is no filter)
and the category filter `cf` (`none` or `[]` is no filter): no month filter is
set or its date parses and its bucket key equals the month filter, and no
category filter is set or its upper-cased category equals the category
filter. -/
def InView (host : DateHost) (mf : Str) (cf : Option Str) (t : Transaction) : Prop :=
  (mf = [] ∨ ∃ d, parseDateSmart host.parse t.date = some d ∧ yyyymm host d = mf) ∧
  (cf = none ∨ cf = some [] ∨ cf = some (catKey t))

instance (host : DateHost) (mf : Str) (t : Transaction) :
    Decidable (∃ d, parseDateSmart host.parse t.date = some d ∧ yyyymm host d = mf) :=
  decidable_of_iff (inMonth host mf t = true) (by
    unfold inMonth
    cases parseDateSmart host.parse t.date <;> simp)

instance (host : DateHost) (mf : Str) (cf : Option Str) (t : Transaction) :
    Decidable (InView host mf cf t) :=
  inferInstanceAs (Decidable (_ ∧ _))

deriving instance DecidableEq for Except

/-! ## Theorems -/

/-! ### Loading: header-row inference -/

theorem parseAmount_not_nan (s : Option Str) : isNaN (parseAmount s) = false := by
  cases s <;> rfl

theorem startIdx_eq_zero (rows : List (List Str)) (COL : ColumnMap) : startIdx rows COL = 0 := by
  unfold startIdx
  rw [parseAmount_not_nan]
  rfl

/-- C1 (the code departs from the claim): `parseAmount` ends in `|| 0` and so
never returns `NaN`; the test `isNaN(parseAmount(...))` of `loadCsvText` is
therefore false for every row list and data always starts at row 0.  The
header text `Debit` is filtered to the empty string, which `Number` reads as
0; a cell such as `Amt.` is filtered to `.`, which `Number` rejects, and
still gives amount 0.  On the rows `[Date, Debit, Description]`,
`[01/02/2024, 12.50, Coffee]` a transaction with date `Date`, amount 0 and
description `Description` is built from row 0. -/
theorem loadRows_builds_txn_from_header_row :
    (∀ rows COL, startIdx rows COL = 0) ∧
    jsNumber ("Debit".toList.filter
      (fun c => isDigit c || c == '-' || c == ',' || c == '.')) = JsNum.fin 0 ∧
    jsNumber ("Amt.".toList.filter
      (fun c => isDigit c || c == '-' || c == ',' || c == '.')) = JsNum.nan ∧
    parseAmount (some "Amt.".toList) = JsNum.fin 0 ∧
    detectColumns (some ["Date".toList, "Debit".toList, "Description".toList]) = ⟨0, 1, 2⟩ ∧
    loadRows [["Date".toList, "Debit".toList, "Description".toList],
        ["01/02/2024".toList, "12.50".toList, "Coffee".toList]]
      = Except.ok [⟨"Date".toList, JsNum.fin 0, "Description".toList, none⟩,
          ⟨"01/02/2024".toList, JsNum.fin (25 / 2), "Coffee".toList, none⟩] :=
  ⟨startIdx_eq_zero, by decide!, by decide!, by decide!, by decide, by decide!⟩

/-! ### Dates: the numeric strategy -/

/-- What `parseDateSmart` returns for an input that reaches the numeric
strategy with groups `a`, `b`, `y`. -/
theorem parseDateSmart_numeric (gp : Str → Option JsDate) (s : Str) (a b y : Nat)
    (hs : s ≠ []) (hg : gp s = none) (hm : matchNumericDate (trim s) = some (a, b, y)) :
    parseDateSmart gp s =
      some ⟨(y : Int), ((if a > 12 then b else a : Nat) : Int) - 1,
        ((if a > 12 then a else (if b > 12 then b else a) : Nat) : Int)⟩ := by
  simp [parseDateSmart, hs, hg, hm]

/-- C2 (the code departs from the claim): for an input `A/B/YYYY` (or with `-` as separator) that
reaches the numeric strategy with `A ≤ 12` and `B ≤ 12`, the date is
constructed with day `A` and month `A`: the month expression
`a>12 ? b : a` has no branch for `B`, so `B` is ignored. -/
theorem parseDateSmart_both_le_12_month_is_A (gp : Str → Option JsDate) (s : Str)
    (a b y : Nat) (hs : s ≠ []) (hg : gp s = none)
    (hm : matchNumericDate (trim s) = some (a, b, y)) (ha : a ≤ 12) (_hb : b ≤ 12) :
    parseDateSmart gp s = some ⟨(y : Int), (a : Int) - 1, (a : Int)⟩ := by
  have h1 : ¬ a > 12 := by omega
  have h2 : ¬ b > 12 := by omega
  rw [parseDateSmart_numeric gp s a b y hs hg hm]
  simp [h1, h2]

/-- C2, at the failing input: `05-03-2024` (day 5, month 3 by the claim),
when the host's generic parser rejects it, becomes 5 May 2024 (month index
4), not 5 March 2024 (month index 2). -/
theorem parseDateSmart_05_03_2024 :
    matchNumericDate (trim "05-03-2024".toList) = some (5, 3, 2024) ∧
    parseDateSmart (fun _ => none) "05-03-2024".toList = some ⟨2024, 4, 5⟩ ∧
    parseDateSmart (fun _ => none) "05-03-2024".toList ≠ some ⟨2024, 2, 5⟩ := by
  have h := parseDateSmart_both_le_12_month_is_A (fun _ => none) "05-03-2024".toList 5 3 2024
    (by decide) rfl (by decide) (by decide) (by decide)
  refine ⟨by decide, ?_, ?_⟩
  · rw [h]; decide
  · rw [h]; decide

/-- C3: for every input `A/B/YYYY` (or with `-` as separator) that reaches the numeric strategy
(non-empty, rejected by the generic parser, matched by the pattern with
groups `A`, `B`, `YYYY`): if `A > 12` the date is built with day `A` and
month `B` (month index `B - 1`); otherwise, if `B > 12`, it is built with day
`B` and month `A`. -/
theorem parseDateSmart_disambiguates (gp : Str → Option JsDate) (s : Str) (a b y : Nat)
    (hs : s ≠ []) (hg : gp s = none) (hm : matchNumericDate (trim s) = some (a, b, y)) :
    (12 < a → parseDateSmart gp s = some ⟨(y : Int), (b : Int) - 1, (a : Int)⟩) ∧
    (a ≤ 12 → 12 < b → parseDateSmart gp s = some ⟨(y : Int), (a : Int) - 1, (b : Int)⟩) := by
  rw [parseDateSmart_numeric gp s a b y hs hg hm]
  constructor
  · intro h
    simp [h]
  · intro h1 h2
    have h3 : ¬ a > 12 := by omega
    simp [h3, h2]

/-- C3, witness: `15/03/2024` reaches the numeric strategy when the generic
parser rejects it, and gives day 15, month 3 (index 2), year 2024. -/
theorem parseDateSmart_15_03_2024 :
    matchNumericDate (trim "15/03/2024".toList) = some (15, 3, 2024) ∧
    parseDateSmart (fun _ => none) "15/03/2024".toList = some ⟨2024, 2, 15⟩ := by
  refine ⟨by decide, ?_⟩
  rw [(parseDateSmart_disambiguates (fun _ => none) "15/03/2024".toList 15 3 2024
    (by decide) rfl (by decide)).1 (by decide)]
  decide

/-! ### Paging: page count and clamping -/

theorem totalPages_le_iff (n : Nat) (k : Int) :
    totalPages n ≤ k ↔ 1 ≤ k ∧ (n : Int) ≤ 10 * k := by
  unfold totalPages PAGE_SIZE
  rw [max_le_iff, Int.ceil_le, Nat.cast_ofNat, div_le_iff₀ (by norm_num : (0 : ℚ) < 10)]
  constructor
  · rintro ⟨h1, h2⟩
    refine ⟨h1, ?_⟩
    have : ((n : Int) : ℚ) ≤ ((10 * k : Int) : ℚ) := by push_cast; linarith
    exact_mod_cast this
  · rintro ⟨h1, h2⟩
    refine ⟨h1, ?_⟩
    have : ((n : Int) : ℚ) ≤ ((10 * k : Int) : ℚ) := by exact_mod_cast h2
    push_cast at this; linarith

theorem totalPages_eq (n : Nat) : totalPages n = max 1 (((n + 9) / 10 : Nat) : Int) := by
  apply le_antisymm
  · rw [totalPages_le_iff]
    refine ⟨le_max_left _ _, ?_⟩
    have h2 : (((n + 9) / 10 : Nat) : Int) ≤ max 1 (((n + 9) / 10 : Nat) : Int) :=
      le_max_right _ _
    omega
  · have h := (totalPages_le_iff n (totalPages n)).mp le_rfl
    rw [max_le_iff]
    refine ⟨h.1, ?_⟩
    omega

theorem clampPage_some (q T : Int) :
    clampPage (some q) T =
      if q > T then (if T < 1 then 1 else T) else (if q < 1 then 1 else q) := by
  unfold clampPage
  by_cases h : q > T
  · simp only [h, if_true]
    split_ifs <;> omega
  · simp only [h, if_false]
    split_ifs <;> omega

/-- C10: for every filtered count `n` and every current page `p` (possibly
missing), `totalPages` is `max(1, ceil(n / 10))` (also in integer form,
`max(1, (n + 9) div 10)`), the clamped page lies in `[1, totalPages]`, a page
already in that range is unchanged, a page above it becomes `totalPages`, and
a page below 1 or a missing page becomes 1. -/
theorem clampPage_into_range (n : Nat) (p : Option Int) :
    totalPages n = max 1 (Int.ceil ((n : ℚ) / 10)) ∧
    totalPages n = max 1 (((n + 9) / 10 : Nat) : Int) ∧
    1 ≤ clampPage p (totalPages n) ∧ clampPage p (totalPages n) ≤ totalPages n ∧
    (∀ q : Int, p = some q → 1 ≤ q → q ≤ totalPages n → clampPage p (totalPages n) = q) ∧
    (∀ q : Int, p = some q → totalPages n < q →
      clampPage p (totalPages n) = totalPages n) ∧
    (∀ q : Int, p = some q → q < 1 → clampPage p (totalPages n) = 1) ∧
    (p = none → clampPage p (totalPages n) = 1) := by
  have h1 : 1 ≤ totalPages n := ((totalPages_le_iff n _).mp le_rfl).1
  refine ⟨by simp [totalPages, PAGE_SIZE], totalPages_eq n, ?_, ?_, ?_, ?_, ?_, ?_⟩
  · cases p with
    | none => simp [clampPage]
    | some q => rw [clampPage_some]; split_ifs <;> omega
  · cases p with
    | none => simpa [clampPage] using h1
    | some q => rw [clampPage_some]; split_ifs <;> omega
  · rintro q rfl hq1 hq2
    rw [clampPage_some]; split_ifs <;> omega
  · rintro q rfl hq
    rw [clampPage_some]; split_ifs <;> omega
  · rintro q rfl hq
    rw [clampPage_some]; split_ifs <;> omega
  · rintro rfl
    simp [clampPage]

/-- C10, witness: 23 filtered transactions give 3 pages, and page 4 is
clamped to page 3. -/
theorem clampPage_23_rows_page_4 :
    totalPages 23 = 3 ∧ (3 : Int) < 4 ∧ clampPage (some 4) (totalPages 23) = 3 := by
  have h := clampPage_into_range 23 (some 4)
  have h3 : totalPages 23 = 3 := by rw [h.2.1]; decide
  refine ⟨h3, by decide, ?_⟩
  rw [h.2.2.2.2.2.1 4 rfl (by rw [h3]; decide), h3]

/-! ### Categorisation -/

theorem scanRules_eq_find (d : Str) (rules : List Rule) :
    scanRules d rules =
      ((rules.find? (fun r => matchesKeyword d r.keyword)).map Rule.category).getD
        UNCATEGORISED := by
  induction rules with
  | nil => rfl
  | cons r rest ih =>
    unfold scanRules
    by_cases h : matchesKeyword d r.keyword = true
    · simp [h, List.find?_cons]
    · simp only [h, if_false, Bool.false_eq_true]
      rw [ih, List.find?_cons]
      simp [h]

/-- C6: for every transaction list and every ordered rule list, `categorise`
keeps the number, order, date, amount and description of the transactions,
and gives each the category of the first rule, in rule order, whose keyword
`matchesKeyword` the lower-cased description, or `UNCATEGORISED` when no rule
matches. -/
theorem categorise_assigns_first_match (txns : List Transaction) (rules : List Rule) :
    (categorise txns rules).map clearCategory = txns.map clearCategory ∧
    (categorise txns rules).map Transaction.category =
      txns.map (fun t =>
        some (((rules.find?
          (fun r => matchesKeyword (toLowerCase t.description) r.keyword)).map
            Rule.category).getD UNCATEGORISED)) := by
  constructor
  · simp [categorise, clearCategory, List.map_map, Function.comp_def]
  · simp [categorise, List.map_map, Function.comp_def, scanRules_eq_find]

theorem categorise_clearCategory (txns : List Transaction) (rules : List Rule) :
    categorise (txns.map clearCategory) rules = categorise txns rules := by
  simp [categorise, clearCategory, List.map_map, Function.comp_def]

/-- C7: for every transaction list and rule list, running `categorise` again
on its own result changes nothing, and two transaction lists that differ only
in their prior category fields get the same result. -/
theorem categorise_idempotent_state_independent (txns txns2 : List Transaction)
    (rules : List Rule) :
    categorise (categorise txns rules) rules = categorise txns rules ∧
    (txns.map clearCategory = txns2.map clearCategory →
      categorise txns rules = categorise txns2 rules) := by
  constructor
  · simp [categorise, List.map_map, Function.comp_def]
  · intro h
    rw [← categorise_clearCategory txns, ← categorise_clearCategory txns2, h]

/-- C7, witness: two lists that differ only in the prior category (`OLD`
against unset) are categorised alike, here as `DINING`. -/
theorem categorise_ignores_prior_category :
    categorise [⟨"01/02/2024".toList, JsNum.fin 4, "Coffee Shop".toList, some "OLD".toList⟩]
        [⟨"coffee".toList, "DINING".toList⟩] =
      categorise [⟨"01/02/2024".toList, JsNum.fin 4, "Coffee Shop".toList, none⟩]
        [⟨"coffee".toList, "DINING".toList⟩] ∧
    categorise [⟨"01/02/2024".toList, JsNum.fin 4, "Coffee Shop".toList, none⟩]
        [⟨"coffee".toList, "DINING".toList⟩] =
      [⟨"01/02/2024".toList, JsNum.fin 4, "Coffee Shop".toList, some "DINING".toList⟩] :=
  ⟨(categorise_idempotent_state_independent _ _ _).2 (by decide), by decide⟩

/-! ### Keyword matching -/

theorem isPrefixOf_iff_take (p l : Str) :
    p.isPrefixOf l = true ↔ p.length ≤ l.length ∧ l.take p.length = p := by
  induction p generalizing l with
  | nil => simp
  | cons c p ih =>
    cases l with
    | nil => simp
    | cons e l =>
      simp only [List.isPrefixOf, Bool.and_eq_true, beq_iff_eq, ih, List.length_cons,
        List.take_succ_cons, List.cons.injEq]
      constructor
      · rintro ⟨rfl, h1, h2⟩
        exact ⟨by omega, rfl, h2⟩
      · rintro ⟨h1, rfl, h2⟩
        exact ⟨rfl, by omega, h2⟩

theorem isPrefixOf_drop_iff (d p : Str) (i : Nat) (hi : i ≤ d.length) :
    p.isPrefixOf (d.drop i) = true ↔ occursAt d p i := by
  rw [isPrefixOf_iff_take, occursAt, List.length_drop]
  constructor
  · rintro ⟨h1, h2⟩
    exact ⟨by omega, h2⟩
  · rintro ⟨h1, h2⟩
    exact ⟨by omega, h2⟩

theorem occursAt_le (d p : Str) (i : Nat) (h : occursAt d p i) : i ≤ d.length := by
  have := h.1
  omega

theorem indexOfScan_some (d p : Str) (fuel i j : Nat) (h : indexOfScan d p fuel i = some j) :
    i ≤ j ∧ j < i + fuel ∧ p.isPrefixOf (d.drop j) = true ∧
      ∀ k, i ≤ k → k < j → p.isPrefixOf (d.drop k) = false := by
  induction fuel generalizing i with
  | zero => simp [indexOfScan] at h
  | succ fuel ih =>
    unfold indexOfScan at h
    by_cases hp : p.isPrefixOf (d.drop i) = true
    · rw [if_pos hp] at h
      cases h
      exact ⟨le_rfl, by omega, hp, fun k h1 h2 => by omega⟩
    · rw [if_neg hp] at h
      obtain ⟨h1, h2, h3, h4⟩ := ih (i + 1) h
      refine ⟨by omega, by omega, h3, fun k hk1 hk2 => ?_⟩
      by_cases hki : k = i
      · subst hki; exact Bool.eq_false_iff.mpr hp
      · exact h4 k (by omega) hk2

theorem indexOfScan_none (d p : Str) (fuel i : Nat) (h : indexOfScan d p fuel i = none) :
    ∀ k, i ≤ k → k < i + fuel → p.isPrefixOf (d.drop k) = false := by
  induction fuel generalizing i with
  | zero => intro k h1 h2; omega
  | succ fuel ih =>
    unfold indexOfScan at h
    by_cases hp : p.isPrefixOf (d.drop i) = true
    · rw [if_pos hp] at h; cases h
    · rw [if_neg hp] at h
      intro k hk1 hk2
      by_cases hki : k = i
      · subst hki; exact Bool.eq_false_iff.mpr hp
      · exact ih (i + 1) h k (by omega) (by omega)

/-- `indexOf` returns the least position at or after the cursor at which a
non-empty token occurs. -/
theorem indexOf_some (d p : Str) (pos j : Nat) (hp : p ≠ []) (h : indexOf d p pos = some j) :
    pos ≤ j ∧ occursAt d p j ∧ ∀ k, pos ≤ k → k < j → ¬ occursAt d p k := by
  unfold indexOf at h
  obtain ⟨h1, h2, h3, h4⟩ := indexOfScan_some d p _ _ j h
  have hj : j ≤ d.length := by omega
  have ho : occursAt d p j := (isPrefixOf_drop_iff d p j hj).mp h3
  have hlen : 0 < p.length := List.length_pos.mpr hp
  have hjlt : j < d.length := by have := ho.1; omega
  have hpos : pos ≤ j := by omega
  refine ⟨hpos, ho, fun k hk1 hk2 hk => ?_⟩
  have := h4 k (by omega) hk2
  rw [(isPrefixOf_drop_iff d p k (by omega)).mpr hk] at this
  cases this

theorem indexOf_none (d p : Str) (pos : Nat) (h : indexOf d p pos = none) :
    ∀ k, pos ≤ k → ¬ occursAt d p k := by
  unfold indexOf at h
  intro k hk ho
  have hkl := occursAt_le d p k ho
  have := indexOfScan_none d p _ _ h k (by omega) (by omega)
  rw [(isPrefixOf_drop_iff d p k hkl).mpr ho] at this
  cases this

theorem Placed_mono (d : Str) (ts : List Str) (ps : List Nat) (lo lo2 : Nat) (h : lo2 ≤ lo)
    (hp : Placed d ts ps lo) : Placed d ts ps lo2 := by
  cases ts with
  | nil => cases ps with
    | nil => trivial
    | cons p ps => exact hp.elim
  | cons t ts => cases ps with
    | nil => exact hp.elim
    | cons p ps =>
      obtain ⟨h1, h2, h3⟩ := hp
      exact ⟨by omega, h2, h3⟩

/-- The greedy cursor loop succeeds exactly when the tokens can be placed. -/
theorem matchLoop_iff_placed (d : Str) (ts : List Str) (hne : ∀ t ∈ ts, t ≠ []) (pos : Nat) :
    matchLoop d ts pos = true ↔ ∃ ps, Placed d ts ps pos := by
  induction ts generalizing pos with
  | nil =>
    simp only [matchLoop, true_iff]
    exact ⟨[], trivial⟩
  | cons t ts ih =>
    have ht : t ≠ [] := hne t (List.mem_cons_self _ _)
    have hne2 : ∀ u ∈ ts, u ≠ [] := fun u hu => hne u (List.mem_cons_of_mem _ hu)
    unfold matchLoop
    cases hi : indexOf d t pos with
    | none =>
      simp only [Bool.false_eq_true, false_iff]
      rintro ⟨ps, hps⟩
      cases ps with
      | nil => exact hps.elim
      | cons p ps => exact indexOf_none d t pos hi p hps.1 hps.2.1
    | some i =>
      obtain ⟨h1, h2, h3⟩ := indexOf_some d t pos i ht hi
      simp only []
      rw [ih hne2]
      constructor
      · rintro ⟨ps, hps⟩
        exact ⟨i :: ps, h1, h2, hps⟩
      · rintro ⟨ps, hps⟩
        cases ps with
        | nil => exact hps.elim
        | cons p ps =>
          obtain ⟨g1, g2, g3⟩ := hps
          have hip : i ≤ p := by
            by_contra hc
            exact h3 p g1 (by omega) g2
          exact ⟨ps, Placed_mono d ts ps _ _ (by omega) g3⟩

theorem placed_iff_positions (d : Str) (ts : List Str) (ps : List Nat) (lo : Nat) :
    Placed d ts ps lo ↔
      ps.length = ts.length ∧
      (∀ i, i < ts.length → occursAt d (ts.getD i []) (ps.getD i 0)) ∧
      (∀ i, i + 1 < ts.length → ps.getD i 0 + (ts.getD i []).length ≤ ps.getD (i + 1) 0) ∧
      (0 < ts.length → lo ≤ ps.getD 0 0) := by
  induction ts generalizing ps lo with
  | nil =>
    cases ps with
    | nil => simp [Placed]
    | cons p ps => simp [Placed]
  | cons t ts ih =>
    cases ps with
    | nil => simp [Placed]
    | cons p ps =>
      simp only [Placed, ih, List.length_cons, List.getD_cons_zero]
      constructor
      · rintro ⟨h1, h2, h3, h4, h5, h6⟩
        refine ⟨by omega, ?_, ?_, fun _ => h1⟩
        · intro i hi
          cases i with
          | zero => simpa using h2
          | succ i => simpa using h4 i (by omega)
        · intro i hi
          cases i with
          | zero => simpa using h6 (by omega)
          | succ i => simpa using h5 i (by omega)
      · rintro ⟨h1, h2, h3, h4⟩
        refine ⟨h4 (by omega), ?_, by omega, ?_, ?_, ?_⟩
        · simpa using h2 0 (by omega)
        · intro i hi
          simpa using h2 (i + 1) (by omega)
        · intro i hi
          simpa using h3 (i + 1) (by omega)
        · intro hpos
          simpa using h3 0 (by omega)

theorem keywordParts_ne_nil (k : Str) : ∀ t ∈ keywordParts k, t ≠ [] := by
  intro t ht
  unfold keywordParts at ht
  simpa using (List.mem_filter.mp ht).2

theorem flatten_consHead (c : Char) (L : List Str) : (consHead c L).flatten = c :: L.flatten := by
  cases L <;> simp [consHead]

theorem mem_consHead (c : Char) (L : List Str) (t : Str) (h : t ∈ consHead c L) :
    (∃ u, t = c :: u ∧ (u = [] ∨ u ∈ L)) ∨ t ∈ L := by
  cases L with
  | nil =>
    simp only [consHead, List.mem_singleton] at h
    exact Or.inl ⟨[], h, Or.inl rfl⟩
  | cons x L =>
    simp only [consHead, List.mem_cons] at h
    rcases h with h | h
    · exact Or.inl ⟨x, h, Or.inr (List.mem_cons_self _ _)⟩
    · exact Or.inr (List.mem_cons_of_mem _ h)

theorem splitWhitespace_flatten (k : Str) (afterWs : Bool) :
    (splitWhitespace k afterWs).flatten = k.filter (fun c => !isWhitespace c) := by
  induction k generalizing afterWs with
  | nil => simp [splitWhitespace]
  | cons c rest ih =>
    unfold splitWhitespace
    by_cases hc : isWhitespace c = true
    · cases afterWs <;> simp [hc, ih]
    · simp [hc, flatten_consHead, ih]

theorem splitWhitespace_no_ws (k : Str) (afterWs : Bool) :
    ∀ t ∈ splitWhitespace k afterWs, ∀ c ∈ t, isWhitespace c = false := by
  induction k generalizing afterWs with
  | nil => simp [splitWhitespace]
  | cons c rest ih =>
    unfold splitWhitespace
    by_cases hc : isWhitespace c = true
    · intro t ht
      cases afterWs with
      | true =>
        simp only [hc, if_true] at ht
        exact ih true t ht
      | false =>
        simp only [hc, if_true, Bool.false_eq_true, if_false, List.mem_cons] at ht
        rcases ht with rfl | ht
        · simp
        · exact ih true t ht
    · intro t ht
      simp only [hc, if_false, Bool.false_eq_true] at ht
      rcases mem_consHead c _ t ht with ⟨u, rfl, hu⟩ | ht2
      · intro e he
        rcases List.mem_cons.mp he with rfl | he2
        · simpa using hc
        · rcases hu with rfl | hu
          · cases he2
          · exact ih false u hu e he2
      · exact ih false t ht2

/-- The tokens of a keyword are non-empty, contain no whitespace, and spell,
in order, the keyword with its whitespace removed. -/
theorem keywordParts_tokens (k : Str) :
    (∀ t ∈ keywordParts k, t ≠ [] ∧ ∀ c ∈ t, isWhitespace c = false) ∧
    (keywordParts k).flatten = k.filter (fun c => !isWhitespace c) := by
  constructor
  · intro t ht
    unfold keywordParts at ht
    have h := List.mem_filter.mp ht
    exact ⟨by simpa using h.2, splitWhitespace_no_ws k false t h.1⟩
  · rw [← splitWhitespace_flatten k false]
    unfold keywordParts
    generalize splitWhitespace k false = L
    induction L with
    | nil => simp
    | cons x L ih =>
      by_cases hx : x = []
      · simp only [List.filter_cons, hx, ne_eq, not_true_eq_false, decide_False,
          Bool.false_eq_true, if_false, List.flatten_cons, List.nil_append]
        exact ih
      · simp only [List.filter_cons, hx, ne_eq, not_false_eq_true, decide_True, if_true,
          List.flatten_cons]
        rw [ih]

/-- C4: for every description `d` and every keyword `k` with at least one
token, `matchesKeyword d k` is true exactly when there are positions
`p1..pn`, one per token, such that each token occurs in `d` at its position
and every position is at or after the end of the previous token's occurrence:
the greedy leftmost search finds a placement whenever one exists. -/
theorem matchesKeyword_iff_ordered_occurrence (d k : Str) (h : keywordParts k ≠ []) :
    matchesKeyword d k = true ↔
      ∃ ps : List Nat, ps.length = (keywordParts k).length ∧
        (∀ i, i < (keywordParts k).length →
          occursAt d ((keywordParts k).getD i []) (ps.getD i 0)) ∧
        (∀ i, i + 1 < (keywordParts k).length →
          ps.getD i 0 + ((keywordParts k).getD i []).length ≤ ps.getD (i + 1) 0) := by
  have hk : k ≠ [] := by
    rintro rfl
    exact h (by decide)
  unfold matchesKeyword
  rw [if_neg hk, matchLoop_iff_placed d _ (keywordParts_ne_nil k) 0]
  constructor
  · rintro ⟨ps, hps⟩
    obtain ⟨h1, h2, h3, _⟩ := (placed_iff_positions d _ ps 0).mp hps
    exact ⟨ps, h1, h2, h3⟩
  · rintro ⟨ps, h1, h2, h3⟩
    exact ⟨ps, (placed_iff_positions d _ ps 0).mpr ⟨h1, h2, h3, fun _ => Nat.zero_le _⟩⟩

/-- C4, witness: `paypal pypl` matches `paypal pypl inc`, so a placement of
its two tokens exists there; it does not match `pypl paypal`, so no placement
exists there. -/
theorem matchesKeyword_paypal_pypl :
    matchesKeyword "paypal pypl inc".toList "paypal pypl".toList = true ∧
    (∃ ps : List Nat, ps.length = (keywordParts "paypal pypl".toList).length ∧
        (∀ i, i < (keywordParts "paypal pypl".toList).length →
          occursAt "paypal pypl inc".toList ((keywordParts "paypal pypl".toList).getD i [])
            (ps.getD i 0)) ∧
        (∀ i, i + 1 < (keywordParts "paypal pypl".toList).length →
          ps.getD i 0 + ((keywordParts "paypal pypl".toList).getD i []).length
            ≤ ps.getD (i + 1) 0)) ∧
    matchesKeyword "pypl paypal".toList "paypal pypl".toList = false ∧
    ¬ (∃ ps : List Nat, ps.length = (keywordParts "paypal pypl".toList).length ∧
        (∀ i, i < (keywordParts "paypal pypl".toList).length →
          occursAt "pypl paypal".toList ((keywordParts "paypal pypl".toList).getD i [])
            (ps.getD i 0)) ∧
        (∀ i, i + 1 < (keywordParts "paypal pypl".toList).length →
          ps.getD i 0 + ((keywordParts "paypal pypl".toList).getD i []).length
            ≤ ps.getD (i + 1) 0)) :=
  ⟨by decide,
   (matchesKeyword_iff_ordered_occurrence "paypal pypl inc".toList "paypal pypl".toList
      (by decide)).mp (by decide),
   by decide,
   fun h => absurd
     ((matchesKeyword_iff_ordered_occurrence "pypl paypal".toList "paypal pypl".toList
        (by decide)).mpr h) (by decide)⟩

/-! ### Rule parsing -/

theorem foldl_pushRule (ls : List Str) (acc : List Rule) :
    ls.foldl pushRule acc = acc ++ ls.filterMap ruleOfLine := by
  induction ls generalizing acc with
  | nil => simp
  | cons l ls ih =>
    rw [List.foldl_cons, ih]
    unfold pushRule
    cases h : ruleOfLine l <;> simp [List.filterMap_cons, h]

theorem splitArrow_ne_nil (t : Str) : splitArrow t ≠ [] := by
  induction t using splitArrow.induct with
  | case1 => simp [splitArrow]
  | case2 rest ih => simp [splitArrow]
  | case3 c rest hne ih =>
    rw [splitArrow]
    · cases h : splitArrow rest <;> simp [consHead]
    · exact hne

/-- The pieces of `split` are the text before the first separator followed by
the pieces of the text after it. -/
theorem splitArrow_eq_cut (t : Str) :
    splitArrow t =
      match cutAtArrow t with
      | none => [t]
      | some (before, after) => before :: splitArrow after := by
  induction t using splitArrow.induct with
  | case1 => simp [splitArrow, cutAtArrow]
  | case2 rest ih => simp [splitArrow, cutAtArrow]
  | case3 c rest hne ih =>
    rw [splitArrow, cutAtArrow]
    · rw [ih]
      cases h : cutAtArrow rest with
      | none => simp [consHead]
      | some ba => simp [consHead]
    · exact hne
    · exact hne

theorem splitArrow_head (a : Str) : (splitArrow a)[0]?.getD [] = upToArrow a := by
  rw [splitArrow_eq_cut, upToArrow]
  cases h : cutAtArrow a with
  | none => simp
  | some ba => simp

theorem ruleOfLine_eq_cut (line : Str) : ruleOfLine line = ruleOfLineCut line := by
  unfold ruleOfLine ruleOfLineCut
  simp only []
  by_cases h1 : trim line = []
  · simp [h1]
  by_cases h2 : (trim line).head? = some '#'
  · simp [h2]
  rw [if_neg (by simp [h1, h2]), if_neg h1, if_neg h2, splitArrow_eq_cut (trim line)]
  cases h : cutAtArrow (trim line) with
  | none => simp
  | some ba =>
    obtain ⟨b, a⟩ := ba
    have hlen : (b :: splitArrow a).length ≥ 2 := by
      have := List.length_pos.mpr (splitArrow_ne_nil a)
      simp only [List.length_cons]; omega
    simp only []
    rw [if_pos hlen]
    have e1 : (b :: splitArrow a)[1]? = (splitArrow a)[0]? := by simp
    rw [e1, splitArrow_head]
    simp only [List.getElem?_cons_zero, Option.getD_some]
    by_cases hk : toLowerCase (trim b) = []
    · simp [hk]
    · by_cases hc : toUpperCase (trim (upToArrow a)) = []
      · simp [hc]
      · simp [hk, hc]

/-- C5 as stated fails: on the line `shop => => FOOD` the portion after the
separator is `=> FOOD`, a non-empty category, so the reference definition
gives the rule `shop` to `=> FOOD`; `parseRules` takes only the text up to
the next `=>`, finds it empty and gives no rule. -/
theorem parseRules_ne_parseRulesSpec_second_arrow :
    parseRules "shop => => FOOD".toList = [] ∧
    parseRulesSpec "shop => => FOOD".toList = [⟨"shop".toList, "=> FOOD".toList⟩] ∧
    ¬ (∀ text, parseRules text = parseRulesSpec text) := by
  refine ⟨by decide, by decide, fun h => ?_⟩
  have := h "shop => => FOOD".toList
  revert this
  decide

/-- C5, amended: for every text, `parseRules` gives exactly, in line order,
one rule for each line that after trimming is non-blank, does not start with
`#`, contains `=>`, and has a non-empty keyword (the text before the first
`=>`, trimmed and lower-cased) and a non-empty category (the text between the
first `=>` and the next `=>` or the end of the line, trimmed and upper-cased);
every other line contributes nothing.  The example of the specification gives
exactly the rules `coffee shop` to `DINING` and `netflix` to `ENTERTAINMENT`. -/
theorem parseRules_eq_parseRulesCut (text : Str) :
    parseRules text = parseRulesCut text ∧
    parseRules
        "coffee shop => DINING\n# note\n\nnetflix=>ENTERTAINMENT\nbadline".toList =
      [⟨"coffee shop".toList, "DINING".toList⟩, ⟨"netflix".toList, "ENTERTAINMENT".toList⟩] := by
  refine ⟨?_, by decide⟩
  unfold parseRules parseRulesCut
  rw [foldl_pushRule, List.nil_append]
  congr 1
  funext line
  exact ruleOfLine_eq_cut line

/-! ### Category totals -/

theorem char_toNat_ofNat (k : Nat) (h : k < 55296) : (Char.ofNat k).toNat = k := by
  unfold Char.ofNat
  have hv : k.isValidChar := Or.inl h
  rw [dif_pos hv]
  simp [Char.ofNatAux, Char.toNat, UInt32.toNat]

theorem foldl_add_snd (l : List (Str × ℚ)) (x : ℚ) :
    l.foldl (fun a r => a + r.2) x = x + (l.map Prod.snd).sum := by
  induction l generalizing x with
  | nil => simp
  | cons e l ih =>
    rw [List.foldl_cons, ih, List.map_cons, List.sum_cons]
    ring

/-- C11: for every page count `pages ≥ 1` and current page `cur` with
`1 ≤ cur ≤ pages`, the numbered buttons of `renderPager` are the consecutive
pages `start, ..., end` with `1 ≤ start ≤ cur ≤ end ≤ pages` and
`end - start + 1 = min(5, pages)`; the window is `cur - 2, ..., cur + 2`
whenever `3 ≤ cur ≤ pages - 2`; First and Prev are disabled exactly when
`cur = 1`, Next and Last exactly when `cur = pages`. -/
theorem renderPager_window (pages cur : Int) (h1 : 1 ≤ pages) (h2 : 1 ≤ cur)
    (h3 : cur ≤ pages) :
    ∃ start stop : Int,
      (renderPager pages (some cur)).numbered =
        (List.range (stop - start + 1).toNat).map (fun k => start + (k : Int)) ∧
      1 ≤ start ∧ start ≤ cur ∧ cur ≤ stop ∧ stop ≤ pages ∧
      stop - start + 1 = min 5 pages ∧
      (3 ≤ cur → cur ≤ pages - 2 → start = cur - 2 ∧ stop = cur + 2) ∧
      ((renderPager pages (some cur)).firstDisabled = true ↔ cur = 1) ∧
      ((renderPager pages (some cur)).prevDisabled = true ↔ cur = 1) ∧
      ((renderPager pages (some cur)).nextDisabled = true ↔ cur = pages) ∧
      ((renderPager pages (some cur)).lastDisabled = true ↔ cur = pages) := by
  have hp : orOne (some pages) = pages := by
    simp only [orOne]; rw [if_neg (by omega)]
  have hc : orOne (some cur) = cur := by
    simp only [orOne]; rw [if_neg (by omega)]
  have h52 : (5 : Int) / 2 = 2 := by decide
  refine ⟨max 1 (min (max 1 (cur - 2)) (min pages (max 1 (cur - 2) + 5 - 1) - 5 + 1)),
    min pages (max 1 (cur - 2) + 5 - 1), ?_, ?_, ?_, ?_, ?_, ?_, ?_, ?_, ?_, ?_, ?_⟩
  · simp only [renderPager, hp, hc, h52]
  · omega
  · omega
  · omega
  · omega
  · omega
  · intro h4 h5
    omega
  · simp [renderPager, hc]
  · simp [renderPager, hc]
  · simp [renderPager, hc, hp]
  · simp [renderPager, hc, hp]

/-- C11, witness: with 10 pages, page 5 shows the buttons 3 to 7, page 10
shows 6 to 10 with Next and Last disabled, and with 3 pages page 1 shows 1 to
3 with First and Prev disabled. -/
theorem renderPager_examples :
    (∃ start stop : Int,
      (renderPager 10 (some 5)).numbered =
        (List.range (stop - start + 1).toNat).map (fun k => start + (k : Int)) ∧
      start = 3 ∧ stop = 7) ∧
    (renderPager 10 (some 5)).numbered = [3, 4, 5, 6, 7] ∧
    (renderPager 10 (some 10)).numbered = [6, 7, 8, 9, 10] ∧
    (renderPager 10 (some 10)).nextDisabled = true ∧
    (renderPager 10 (some 10)).lastDisabled = true ∧
    (renderPager 3 (some 1)).numbered = [1, 2, 3] ∧
    (renderPager 3 (some 1)).firstDisabled = true ∧
    (renderPager 3 (some 1)).prevDisabled = true := by
  refine ⟨?_, by decide, by decide, by decide, by decide, by decide, by decide, by decide⟩
  obtain ⟨start, stop, hn, _, _, _, _, _, hc, _⟩ :=
    renderPager_window 10 5 (by decide) (by decide) (by decide)
  obtain ⟨hs, he⟩ := hc (by decide) (by decide)
  exact ⟨start, stop, hn, by omega, by omega⟩

/-! ### Column detection -/

theorem arrayIndexOf_none_iff (xs : List Str) (x : Str) :
    arrayIndexOf xs x = none ↔ x ∉ xs := by
  induction xs with
  | nil => simp [arrayIndexOf]
  | cons y ys ih =>
    unfold arrayIndexOf
    by_cases h : y = x
    · simp [h]
    · simp only [h, if_false, Option.map_eq_none', ih, List.mem_cons]
      constructor
      · rintro h1 (h2 | h2)
        · exact h h2.symm
        · exact h1 h2
      · intro h1 h2
        exact h1 (Or.inr h2)

theorem arrayIndexOf_some (xs : List Str) (x : Str) (i : Nat) (h : arrayIndexOf xs x = some i) :
    xs[i]? = some x ∧ ∀ j, j < i → xs[j]? ≠ some x := by
  induction xs generalizing i with
  | nil => simp [arrayIndexOf] at h
  | cons y ys ih =>
    unfold arrayIndexOf at h
    by_cases hy : y = x
    · rw [if_pos hy] at h
      cases h
      exact ⟨by simp [hy], fun j hj => by omega⟩
    · rw [if_neg hy] at h
      cases h2 : arrayIndexOf ys x with
      | none => rw [h2] at h; cases h
      | some i2 =>
        rw [h2] at h
        simp only [Option.map_some', Option.some.injEq] at h
        subst h
        obtain ⟨g1, g2⟩ := ih i2 h2
        refine ⟨by simpa using g1, fun j hj => ?_⟩
        cases j with
        | zero => simpa using hy
        | succ j => simpa using g2 j (by omega)

theorem idx_none_iff (header cands : List Str) :
    idx header cands = none ↔ ¬ Resolves header cands := by
  induction cands with
  | nil => simp [idx, Resolves]
  | cons c rest ih =>
    unfold idx
    cases h : arrayIndexOf header c with
    | none =>
      have hc : c ∉ header := (arrayIndexOf_none_iff header c).mp h
      simp only [ih, Resolves, List.mem_cons]
      constructor
      · rintro h1 ⟨cell, hm, (rfl | hr)⟩
        · exact hc hm
        · exact h1 ⟨cell, hm, hr⟩
      · rintro h1 ⟨cell, hm, hr⟩
        exact h1 ⟨cell, hm, Or.inr hr⟩
    | some i =>
      have hc : c ∈ header := by
        by_contra hn
        rw [(arrayIndexOf_none_iff header c).mpr hn] at h
        cases h
      simp only [false_iff, not_not, reduceCtorEq]
      exact ⟨c, hc, List.mem_cons_self _ _⟩

theorem idx_some (header cands : List Str) (i : Nat) (h : idx header cands = some i) :
    PickedByPriority header cands i := by
  induction cands with
  | nil => simp [idx] at h
  | cons c rest ih =>
    unfold idx at h
    cases h2 : arrayIndexOf header c with
    | none =>
      rw [h2] at h
      simp only [] at h
      have hc : c ∉ header := (arrayIndexOf_none_iff header c).mp h2
      obtain ⟨k, c1, g1, g2, g3, g4⟩ := ih h
      refine ⟨k + 1, c1, by simpa using g1, ?_, g3, g4⟩
      intro j c2 hj hc2
      cases j with
      | zero =>
        simp only [List.getElem?_cons_zero, Option.some.injEq] at hc2
        subst hc2
        exact hc
      | succ j =>
        exact g2 j c2 (by omega) (by simpa using hc2)
    | some i2 =>
      rw [h2] at h
      simp only [Option.some.injEq] at h
      subst h
      obtain ⟨g1, g2⟩ := arrayIndexOf_some header c i2 h2
      exact ⟨0, c, by simp, fun j c2 hj _ => by omega, g1, g2⟩

theorem idx_some_of_resolves (header cands : List Str) (h : Resolves header cands) :
    ∃ i, idx header cands = some i := by
  cases hi : idx header cands with
  | none => exact absurd h ((idx_none_iff header cands).mp hi)
  | some i => exact ⟨i, rfl⟩

theorem detectColumns_eq (firstRow : Option (List Str)) :
    detectColumns firstRow =
      match idx (headerOf firstRow) dateCandidates, idx (headerOf firstRow) debitCandidates,
        idx (headerOf firstRow) longDescCandidates with
      | some d, some a, some l => ⟨d, a, l⟩
      | _, _, _ => FALLBACK_COL := rfl

theorem cell_of_picked (header cands : List Str) (i : Nat) (h : PickedByPriority header cands i) :
    ∃ c ∈ cands, header[i]? = some c := by
  obtain ⟨k, c, g1, _, g3, _⟩ := h
  exact ⟨c, List.getElem?_mem g1, g3⟩

/-- C12, amended: for every header row, absent and empty ones included, if at
least one of the three candidate sets has no normalized header cell equal to
one of its names, `detectColumns` returns the fixed map `{2, 5, 9}`;
otherwise each returned index lies within the header and the normalized cell
at that index is one of that field's candidate names.  `detectColumns` is
total: it never fails. -/
theorem detectColumns_fallback_when_unresolved (firstRow : Option (List Str)) :
    (¬ (Resolves (headerOf firstRow) dateCandidates ∧
        Resolves (headerOf firstRow) debitCandidates ∧
        Resolves (headerOf firstRow) longDescCandidates) →
      detectColumns firstRow = FALLBACK_COL) ∧
    (Resolves (headerOf firstRow) dateCandidates ∧
        Resolves (headerOf firstRow) debitCandidates ∧
        Resolves (headerOf firstRow) longDescCandidates →
      (∃ c ∈ dateCandidates, (headerOf firstRow)[(detectColumns firstRow).DATE]? = some c) ∧
      (∃ c ∈ debitCandidates, (headerOf firstRow)[(detectColumns firstRow).DEBIT]? = some c) ∧
      (∃ c ∈ longDescCandidates,
        (headerOf firstRow)[(detectColumns firstRow).LONGDESC]? = some c)) := by
  rw [detectColumns_eq]
  constructor
  · intro h
    cases h1 : idx (headerOf firstRow) dateCandidates with
    | none => rfl
    | some d =>
      cases h2 : idx (headerOf firstRow) debitCandidates with
      | none => rfl
      | some a =>
        cases h3 : idx (headerOf firstRow) longDescCandidates with
        | none => rfl
        | some l =>
          exfalso
          apply h
          refine ⟨?_, ?_, ?_⟩
          · by_contra hn
            rw [(idx_none_iff _ _).mpr hn] at h1
            cases h1
          · by_contra hn
            rw [(idx_none_iff _ _).mpr hn] at h2
            cases h2
          · by_contra hn
            rw [(idx_none_iff _ _).mpr hn] at h3
            cases h3
  · rintro ⟨r1, r2, r3⟩
    obtain ⟨d, h1⟩ := idx_some_of_resolves _ _ r1
    obtain ⟨a, h2⟩ := idx_some_of_resolves _ _ r2
    obtain ⟨l, h3⟩ := idx_some_of_resolves _ _ r3
    rw [h1, h2, h3]
    exact ⟨cell_of_picked _ _ _ (idx_some _ _ _ h1), cell_of_picked _ _ _ (idx_some _ _ _ h2),
      cell_of_picked _ _ _ (idx_some _ _ _ h3)⟩

/-- C13, amended: for every header row in which all three fields resolve, the
index returned for a field is picked by candidate priority: it is the first
position in the header of the first name, in the field's listed candidate
order, that occurs in the header at all. -/
theorem detectColumns_picks_by_candidate_priority (firstRow : Option (List Str))
    (h : Resolves (headerOf firstRow) dateCandidates ∧
        Resolves (headerOf firstRow) debitCandidates ∧
        Resolves (headerOf firstRow) longDescCandidates) :
    PickedByPriority (headerOf firstRow) dateCandidates (detectColumns firstRow).DATE ∧
    PickedByPriority (headerOf firstRow) debitCandidates (detectColumns firstRow).DEBIT ∧
    PickedByPriority (headerOf firstRow) longDescCandidates
      (detectColumns firstRow).LONGDESC := by
  obtain ⟨r1, r2, r3⟩ := h
  obtain ⟨d, h1⟩ := idx_some_of_resolves _ _ r1
  obtain ⟨a, h2⟩ := idx_some_of_resolves _ _ r2
  obtain ⟨l, h3⟩ := idx_some_of_resolves _ _ r3
  rw [detectColumns_eq, h1, h2, h3]
  exact ⟨idx_some _ _ _ h1, idx_some _ _ _ h2, idx_some _ _ _ h3⟩


/-- C12 as stated fails in its "only if": in a header of ten columns with
`Effective Date` in column 2, `Debit` in column 5 and `Long Description` in
column 9, all three fields resolve, and the detected map is `{2, 5, 9}`, the
value of the fixed map. -/
theorem detectColumns_resolved_yet_fallback_value :
    detectColumns (some ["Id".toList, "Account".toList, "Effective Date".toList,
        "Posted".toList, "Cheque".toList, "Debit".toList, "Credit".toList, "Balance".toList,
        "Type".toList, "Long Description".toList]) = FALLBACK_COL ∧
    Resolves (headerOf (some ["Id".toList, "Account".toList, "Effective Date".toList,
        "Posted".toList, "Cheque".toList, "Debit".toList, "Credit".toList, "Balance".toList,
        "Type".toList, "Long Description".toList])) dateCandidates ∧
    Resolves (headerOf (some ["Id".toList, "Account".toList, "Effective Date".toList,
        "Posted".toList, "Cheque".toList, "Debit".toList, "Credit".toList, "Balance".toList,
        "Type".toList, "Long Description".toList])) debitCandidates ∧
    Resolves (headerOf (some ["Id".toList, "Account".toList, "Effective Date".toList,
        "Posted".toList, "Cheque".toList, "Debit".toList, "Credit".toList, "Balance".toList,
        "Type".toList, "Long Description".toList])) longDescCandidates ∧
    ¬ (∀ firstRow : Option (List Str),
        detectColumns firstRow = FALLBACK_COL ↔
          ¬ (Resolves (headerOf firstRow) dateCandidates ∧
            Resolves (headerOf firstRow) debitCandidates ∧
            Resolves (headerOf firstRow) longDescCandidates)) := by
  refine ⟨by decide, by decide, by decide, by decide, fun h => ?_⟩
  have h2 := (h (some ["Id".toList, "Account".toList, "Effective Date".toList,
        "Posted".toList, "Cheque".toList, "Debit".toList, "Credit".toList, "Balance".toList,
        "Type".toList, "Long Description".toList])).mp (by decide)
  exact h2 (by decide)

/-- C12, witness: an absent, an empty and a two-column header give the fixed
map; `Effective Date`, `Debit`, `Long Description` resolve in each of their
six orders. -/
theorem detectColumns_examples :
    detectColumns none = FALLBACK_COL ∧
    detectColumns (some []) = FALLBACK_COL ∧
    detectColumns (some ["Effective Date".toList, "Debit".toList]) = FALLBACK_COL ∧
    detectColumns (some ["Effective Date".toList, "Debit".toList, "Long Description".toList])
      = ⟨0, 1, 2⟩ ∧
    detectColumns (some ["Effective Date".toList, "Long Description".toList, "Debit".toList])
      = ⟨0, 2, 1⟩ ∧
    detectColumns (some ["Debit".toList, "Effective Date".toList, "Long Description".toList])
      = ⟨1, 0, 2⟩ ∧
    detectColumns (some ["Debit".toList, "Long Description".toList, "Effective Date".toList])
      = ⟨2, 0, 1⟩ ∧
    detectColumns (some ["Long Description".toList, "Effective Date".toList, "Debit".toList])
      = ⟨1, 2, 0⟩ ∧
    detectColumns (some ["Long Description".toList, "Debit".toList, "Effective Date".toList])
      = ⟨2, 1, 0⟩ ∧
    (∃ c ∈ dateCandidates,
      (headerOf (some ["Debit".toList, "Long Description".toList, "Effective Date".toList]))[
        (detectColumns
          (some ["Debit".toList, "Long Description".toList, "Effective Date".toList])).DATE]?
        = some c) :=
  ⟨(detectColumns_fallback_when_unresolved none).1 (by decide), by decide, by decide, by decide, by decide, by decide, by decide,
    by decide, by decide,
    ((detectColumns_fallback_when_unresolved (some ["Debit".toList, "Long Description".toList, "Effective Date".toList])).2
      (by decide)).1⟩

/-- C13 as stated fails: in the header `Date, Effective Date, Debit,
Description` the lowest-index cell equal to a date candidate is cell 0
(`date`), but the index returned is 1, the cell of the higher-priority
candidate `effective date`.  And in the header `Date` alone the date field
resolves at cell 0, yet the index returned is 2, from the fixed map. -/
theorem detectColumns_not_lowest_matching_cell :
    (detectColumns (some ["Date".toList, "Effective Date".toList, "Debit".toList,
        "Description".toList])).DATE = 1 ∧
    firstMatchingCell (headerOf (some ["Date".toList, "Effective Date".toList, "Debit".toList,
        "Description".toList])) dateCandidates = some 0 ∧
    Resolves (headerOf (some ["Date".toList])) dateCandidates ∧
    (detectColumns (some ["Date".toList])).DATE = 2 ∧
    firstMatchingCell (headerOf (some ["Date".toList])) dateCandidates = some 0 := by
  decide

/-- C13, witness: in the header `Date, Effective Date, Debit, Description`
the date index 1 is picked by candidate priority. -/
theorem detectColumns_priority_example :
    detectColumns (some ["Date".toList, "Effective Date".toList, "Debit".toList,
        "Description".toList]) = ⟨1, 2, 3⟩ ∧
    PickedByPriority (headerOf (some ["Date".toList, "Effective Date".toList, "Debit".toList,
        "Description".toList])) dateCandidates 1 :=
  ⟨by decide, (detectColumns_picks_by_candidate_priority (some ["Date".toList, "Effective Date".toList, "Debit".toList,
        "Description".toList]) (by decide)).1⟩

/-! ### Amount parsing -/

theorem isDigit_ne_dot (c : Char) (h : isDigit c = true) : c ≠ '.' := by
  rintro rfl; revert h; decide

theorem isDigit_ne_minus (c : Char) (h : isDigit c = true) : c ≠ '-' := by
  rintro rfl; revert h; decide

theorem parseAmount_some (s : Str) :
    parseAmount (some s) = JsNum.fin (orZero (jsNumber (retained s))) := by
  have : (s.filter (fun c => isDigit c || c == '-' || c == ',' || c == '.')).filter
      (fun c => c != ',') = retained s := by
    rw [List.filter_filter, retained]
    apply List.filter_congr
    intro c _
    by_cases h1 : c = ','
    · subst h1; decide
    · have e1 : (c != ',') = true := by simpa using h1
      have e2 : (c == ',') = false := by simpa using h1
      simp only [e1, e2, Bool.or_false, Bool.and_true, Bool.true_and]
  simp only [parseAmount, this]

theorem digitsToNat_foldl (l : Str) (acc : Nat) :
    l.foldl (fun acc c => 10 * acc + digitVal c) acc = acc * 10 ^ l.length + digitsToNat l := by
  induction l generalizing acc with
  | nil => simp [digitsToNat]
  | cons c l ih =>
    have e : digitsToNat (c :: l) = (10 * 0 + digitVal c) * 10 ^ l.length + digitsToNat l := by
      rw [digitsToNat, List.foldl_cons, ih]
    rw [List.foldl_cons, ih, e, List.length_cons]
    ring

theorem digitsToNat_append (a b : Str) :
    digitsToNat (a ++ b) = digitsToNat a * 10 ^ b.length + digitsToNat b := by
  rw [digitsToNat, List.foldl_append, digitsToNat_foldl]
  rfl

theorem dropWhile_head_not (p : Char → Bool) (l : Str) (c : Char) (r : Str)
    (h : l.dropWhile p = c :: r) : p c = false := by
  induction l with
  | nil => simp at h
  | cons x l ih =>
    rw [List.dropWhile_cons] at h
    by_cases hx : p x = true
    · rw [if_pos hx] at h
      exact ih h
    · rw [if_neg hx] at h
      cases h
      simpa using hx

theorem takeWhile_all (p : Char → Bool) (l : Str) : ∀ c ∈ l.takeWhile p, p c = true := by
  induction l with
  | nil => simp
  | cons x l ih =>
    intro c hc
    rw [List.takeWhile_cons] at hc
    by_cases hx : p x = true
    · rw [if_pos hx] at hc
      rcases List.mem_cons.mp hc with rfl | h
      · exact hx
      · exact ih c h
    · rw [if_neg hx] at hc
      cases hc

theorem count_dot_digits (l : Str) (h : ∀ c ∈ l, isDigit c = true) : l.count '.' = 0 := by
  rw [List.count_eq_zero]
  intro hm
  exact isDigit_ne_dot _ (h _ hm) rfl

theorem numeral_shape (body : Str) (h : IsDecimalNumeral body) :
    (body.dropWhile isDigit = [] ∧ body.takeWhile isDigit ≠ []) ∨
    (∃ frac, body.dropWhile isDigit = '.' :: frac ∧ (∀ c ∈ frac, isDigit c = true) ∧
      (body.takeWhile isDigit ≠ [] ∨ frac ≠ [])) := by
  obtain ⟨h1, h2, d, hd, hdd⟩ := h
  have hb : body.takeWhile isDigit ++ body.dropWhile isDigit = body :=
    List.takeWhile_append_dropWhile isDigit body
  cases hr : body.dropWhile isDigit with
  | nil =>
    left
    refine ⟨rfl, ?_⟩
    rw [hr, List.append_nil] at hb
    rw [hb]
    exact List.ne_nil_of_mem hd
  | cons c frac =>
    right
    have hc : isDigit c = false := dropWhile_head_not isDigit body c frac hr
    have hcm : c ∈ body := by
      rw [← hb, hr]; simp
    have hcdot : c = '.' := by
      rcases h1 c hcm with h | h
      · rw [hc] at h; cases h
      · exact h
    subst hcdot
    rw [hr] at hb
    have hcount : frac.count '.' = 0 := by
      rw [← hb, List.count_append, List.count_cons_self,
        count_dot_digits _ (takeWhile_all isDigit body)] at h2
      omega
    have hfrac : ∀ x ∈ frac, isDigit x = true := by
      intro x hx
      have hxb : x ∈ body := by rw [← hb]; simp [hx]
      rcases h1 x hxb with h | h
      · exact h
      · subst h
        exact absurd hx (List.count_eq_zero.mp hcount)
    refine ⟨frac, rfl, hfrac, ?_⟩
    rw [← hb] at hd
    rcases List.mem_append.mp hd with h | h
    · exact Or.inl (List.ne_nil_of_mem h)
    · rcases List.mem_cons.mp h with h | h
      · subst h; exact absurd hdd (by decide)
      · exact Or.inr (List.ne_nil_of_mem h)

theorem numeral_of_shape (body : Str)
    (h : (body.dropWhile isDigit = [] ∧ body.takeWhile isDigit ≠ []) ∨
      (∃ frac, body.dropWhile isDigit = '.' :: frac ∧ (∀ c ∈ frac, isDigit c = true) ∧
        (body.takeWhile isDigit ≠ [] ∨ frac ≠ []))) : IsDecimalNumeral body := by
  have hb : body.takeWhile isDigit ++ body.dropWhile isDigit = body :=
    List.takeWhile_append_dropWhile isDigit body
  have hip := takeWhile_all isDigit body
  rcases h with ⟨h1, h2⟩ | ⟨frac, h1, h2, h3⟩
  · rw [h1, List.append_nil] at hb
    rw [hb] at hip h2
    refine ⟨fun c hc => Or.inl (hip c hc), ?_, ?_⟩
    · rw [count_dot_digits body hip]; omega
    · obtain ⟨c, hc⟩ := List.exists_mem_of_ne_nil _ h2
      exact ⟨c, hc, hip c hc⟩
  · rw [h1] at hb
    refine ⟨?_, ?_, ?_⟩
    · intro c hc
      rw [← hb] at hc
      rcases List.mem_append.mp hc with h | h
      · exact Or.inl (hip c h)
      · rcases List.mem_cons.mp h with h | h
        · exact Or.inr h
        · exact Or.inl (h2 c h)
    · rw [← hb, List.count_append, List.count_cons_self, count_dot_digits _ hip,
        count_dot_digits _ h2]
    · rcases h3 with h | h
      · obtain ⟨c, hc⟩ := List.exists_mem_of_ne_nil _ h
        exact ⟨c, by rw [← hb]; simp [hc], hip c hc⟩
      · obtain ⟨c, hc⟩ := List.exists_mem_of_ne_nil _ h
        exact ⟨c, by rw [← hb]; simp [hc], h2 c hc⟩

theorem dropWhile_ne_dot (ip frac : Str) (h : ∀ c ∈ ip, isDigit c = true) :
    (ip ++ '.' :: frac).dropWhile (fun c => c != '.') = '.' :: frac := by
  induction ip with
  | nil => simp [List.dropWhile_cons]
  | cons x ip ih =>
    have hx : x ≠ '.' := isDigit_ne_dot x (h x (List.mem_cons_self _ _))
    rw [List.cons_append, List.dropWhile_cons]
    simp only [bne_iff_ne, ne_eq, hx, not_false_eq_true, if_true]
    exact ih (fun c hc => h c (List.mem_cons_of_mem _ hc))

theorem numeralValue_digits (ip : Str) (h : ∀ c ∈ ip, isDigit c = true) :
    numeralValue ip = (digitsToNat ip : ℚ) := by
  have h1 : ip.filter isDigit = ip := List.filter_eq_self.mpr h
  have h2 : ip.dropWhile (fun c => c != '.') = [] := by
    rw [List.dropWhile_eq_nil_iff]
    intro c hc
    simpa using isDigit_ne_dot c (h c hc)
  simp [numeralValue, h1, h2]

theorem numeralValue_dot (ip frac : Str) (h1 : ∀ c ∈ ip, isDigit c = true)
    (h2 : ∀ c ∈ frac, isDigit c = true) :
    numeralValue (ip ++ '.' :: frac) =
      (digitsToNat ip : ℚ) + (digitsToNat frac : ℚ) / (10 : ℚ) ^ frac.length := by
  have e1 : (ip ++ '.' :: frac).filter isDigit = ip ++ frac := by
    rw [List.filter_append, List.filter_cons, List.filter_eq_self.mpr h1,
      List.filter_eq_self.mpr h2]
    simp [show isDigit '.' = false by decide]
  have hpow : ((10 : ℚ) ^ frac.length) ≠ 0 := pow_ne_zero _ (by norm_num)
  rw [numeralValue, e1, dropWhile_ne_dot ip frac h1, List.tail_cons, digitsToNat_append]
  push_cast
  field_simp

/-- What `Number` gives on retained characters, by the sign and the body the
code splits the string into. -/
theorem jsNumber_sign_body (s body : Str) (σ : ℚ) (hs : s ≠ [])
    (h : (s.head? = some '-' ∧ body = s.tail ∧ σ = -1) ∨
      (s.head? ≠ some '-' ∧ body = s ∧ σ = 1)) :
    jsNumber s = if IsDecimalNumeral body then JsNum.fin (σ * numeralValue body)
      else JsNum.nan := by
  have hj : jsNumber s =
      match body.dropWhile isDigit with
      | [] => if body.takeWhile isDigit = [] then JsNum.nan
          else JsNum.fin (σ * (digitsToNat (body.takeWhile isDigit) : ℚ))
      | c :: frac =>
        if c = '.' ∧ frac.all isDigit = true ∧ (body.takeWhile isDigit ≠ [] ∨ frac ≠ []) then
          JsNum.fin (σ * ((digitsToNat (body.takeWhile isDigit) : ℚ) +
            (digitsToNat frac : ℚ) / (10 : ℚ) ^ frac.length))
        else JsNum.nan := by
    unfold jsNumber
    rw [if_neg hs]
    rcases h with ⟨h1, rfl, rfl⟩ | ⟨h1, rfl, rfl⟩
    · simp only [h1, decide_True, if_true]
    · simp only [h1, decide_False, if_false, Bool.false_eq_true]
  have hb : body.takeWhile isDigit ++ body.dropWhile isDigit = body :=
    List.takeWhile_append_dropWhile isDigit body
  have hip := takeWhile_all isDigit body
  rw [hj]
  by_cases hnum : IsDecimalNumeral body
  · rw [if_pos hnum]
    rcases numeral_shape body hnum with ⟨g1, g2⟩ | ⟨frac, g1, g2, g3⟩
    · rw [g1]
      simp only [g2, if_false]
      rw [g1, List.append_nil] at hb
      rw [hb] at hip
      rw [hb, numeralValue_digits body hip]
    · rw [g1]
      have hall : frac.all isDigit = true := List.all_eq_true.mpr g2
      simp only [hall, true_and]
      rw [if_pos g3]
      rw [g1] at hb
      rw [← numeralValue_dot _ _ hip g2, hb]
  · rw [if_neg hnum]
    cases g1 : body.dropWhile isDigit with
    | nil =>
      simp only []
      by_cases g2 : body.takeWhile isDigit = []
      · rw [if_pos g2]
      · exact absurd (numeral_of_shape body (Or.inl ⟨g1, g2⟩)) hnum
    | cons c frac =>
      simp only []
      by_cases g2 : c = '.' ∧ frac.all isDigit = true ∧ (body.takeWhile isDigit ≠ [] ∨ frac ≠ [])
      · exfalso
        obtain ⟨rfl, g3, g4⟩ := g2
        exact hnum (numeral_of_shape body (Or.inr ⟨frac, g1, List.all_eq_true.mp g3, g4⟩))
      · rw [if_neg g2]

theorem numeral_head_ne_minus (body : Str) (h : IsDecimalNumeral body) :
    body.head? ≠ some '-' := by
  intro hh
  cases body with
  | nil => cases hh
  | cons c r =>
    simp only [List.head?_cons, Option.some.injEq] at hh
    subst hh
    rcases h.1 '-' (List.mem_cons_self _ _) with h1 | h1
    · exact absurd h1 (by decide)
    · exact absurd h1 (by decide)

/-- `Number` on retained characters: the literal's value for a valid literal,
0 for the empty string, `NaN` otherwise. -/
theorem jsNumber_retained (r : Str) :
    jsNumber r = if r = [] then JsNum.fin 0
      else if IsAmountLiteral r then JsNum.fin (literalValue r) else JsNum.nan := by
  by_cases hr : r = []
  · subst hr; simp [jsNumber]
  rw [if_neg hr]
  cases r with
  | nil => exact absurd rfl hr
  | cons c body =>
    by_cases hc : c = '-'
    · subst hc
      rw [jsNumber_sign_body ('-' :: body) body (-1) hr (Or.inl ⟨rfl, rfl, rfl⟩)]
      simp only [IsAmountLiteral, literalValue]
      by_cases hn : IsDecimalNumeral body
      · simp [hn]
      · simp [hn]
    · have hh : (c :: body).head? ≠ some '-' := by simpa using hc
      rw [jsNumber_sign_body (c :: body) (c :: body) 1 hr (Or.inr ⟨hh, rfl, rfl⟩)]
      have e1 : IsAmountLiteral (c :: body) ↔ IsDecimalNumeral (c :: body) := by
        unfold IsAmountLiteral
        split
        · rename_i heq
          cases heq
          exact absurd rfl hc
        · exact Iff.rfl
      have e2 : literalValue (c :: body) = numeralValue (c :: body) := by
        unfold literalValue
        split
        · rename_i heq
          cases heq
          exact absurd rfl hc
        · rfl
      by_cases hn : IsDecimalNumeral (c :: body)
      · rw [if_pos hn, if_pos (e1.mpr hn), e2, one_mul]
      · rw [if_neg hn, if_neg (fun h => hn (e1.mp h))]

theorem parseAmount_of_not_literal (t : Str) (h : ¬ IsAmountLiteral (retained t)) :
    parseAmount (some t) = JsNum.fin 0 := by
  rw [parseAmount_some, jsNumber_retained]
  by_cases hr : retained t = []
  · rw [if_pos hr]; simp [orZero]
  · rw [if_neg hr, if_neg h]; rfl

/-- C14: for every input, missing, empty or any string, `parseAmount` returns
a number that is not `NaN` (it is a total function: no error); it returns 0
for a missing input, for the empty string, for every string whose retained
characters (digits, `-`, `.`) do not form a valid numeric literal, and in
particular for every string without a digit. -/
theorem parseAmount_never_nan_zero_fallback (s : Option Str) :
    isNaN (parseAmount s) = false ∧
    parseAmount none = JsNum.fin 0 ∧
    parseAmount (some []) = JsNum.fin 0 ∧
    (∀ t : Str, ¬ IsAmountLiteral (retained t) → parseAmount (some t) = JsNum.fin 0) ∧
    (∀ t : Str, (∀ c ∈ t, isDigit c = false) → parseAmount (some t) = JsNum.fin 0) := by
  refine ⟨parseAmount_not_nan s, rfl, by decide!, parseAmount_of_not_literal, ?_⟩
  intro t ht
  apply parseAmount_of_not_literal
  intro hl
  have hdig : ∀ body : Str, (∀ c ∈ body, c ∈ retained t) → ¬ IsDecimalNumeral body := by
    rintro body hb ⟨_, _, c, hc, hcd⟩
    have hct : c ∈ t := (List.mem_filter.mp (hb c hc)).1
    rw [ht c hct] at hcd
    cases hcd
  unfold IsAmountLiteral at hl
  split at hl
  · rename_i body heq
    exact hdig body (fun c hc => by rw [heq]; exact List.mem_cons_of_mem _ hc) hl
  · exact hdig _ (fun c hc => hc) hl

/-- C14, witness: `garbage` retains no character and gives 0, `n/a - n.a`
retains `-.`, which is no numeric literal, and gives 0; a missing input gives
0. -/
theorem parseAmount_garbage_is_zero :
    parseAmount (some "garbage".toList) = JsNum.fin 0 ∧
    retained "n/a - n.a".toList = "-.".toList ∧
    parseAmount (some "n/a - n.a".toList) = JsNum.fin 0 ∧
    parseAmount none = JsNum.fin 0 :=
  ⟨(parseAmount_never_nan_zero_fallback none).2.2.2.2 "garbage".toList (by decide),
   by decide,
   (parseAmount_never_nan_zero_fallback none).2.2.2.1 "n/a - n.a".toList (by decide),
   rfl⟩

theorem inMonth_iff (host : DateHost) (mf : Str) (t : Transaction) :
    inMonth host mf t = true ↔
      ∃ d, parseDateSmart host.parse t.date = some d ∧ yyyymm host d = mf := by
  unfold inMonth
  cases parseDateSmart host.parse t.date <;> simp

theorem monthFilteredTxns_eq_filter (host : DateHost) (mf : Str) (txns : List Transaction) :
    monthFilteredTxns host mf txns =
      txns.filter (fun t => decide (mf = [] ∨
        ∃ d, parseDateSmart host.parse t.date = some d ∧ yyyymm host d = mf)) := by
  unfold monthFilteredTxns
  by_cases h : mf = []
  · rw [if_pos h]
    symm
    rw [List.filter_eq_self]
    intro t _
    simp [h]
  · rw [if_neg h]
    apply List.filter_congr
    intro t _
    by_cases hm : inMonth host mf t = true
    · rw [hm]
      exact (decide_eq_true (Or.inr ((inMonth_iff host mf t).mp hm))).symm
    · have hn : ¬ (mf = [] ∨ ∃ d, parseDateSmart host.parse t.date = some d ∧
          yyyymm host d = mf) := by
        rintro (h1 | h1)
        · exact h h1
        · exact hm ((inMonth_iff host mf t).mpr h1)
      rw [Bool.eq_false_iff.mpr hm]
      exact (decide_eq_false hn).symm

theorem getFilteredTxns_eq_filter (cf : Option Str) (txns : List Transaction) :
    getFilteredTxns cf txns =
      txns.filter (fun t => decide (cf = none ∨ cf = some [] ∨ cf = some (catKey t))) := by
  unfold getFilteredTxns
  cases cf with
  | none =>
    symm
    rw [List.filter_eq_self]
    intro t _
    simp
  | some f =>
    simp only []
    by_cases h : f = []
    · rw [if_pos h]
      symm
      rw [List.filter_eq_self]
      intro t _
      simp [h]
    · rw [if_neg h]
      apply List.filter_congr
      intro t _
      by_cases hk : catKey t = f
      · simp [hk]
      · have : ¬ f = catKey t := fun he => hk he.symm
        simp [hk, h, this]

/-- C16: for every transaction list, month filter and category filter, the
visible list `getFilteredTxns(monthFilteredTxns())` is exactly the
original-order sublist of the transactions in view: those for which no month
filter is set or the date parses and its `YYYY-MM` key equals the month
filter, and no category filter is set or the upper-cased category equals the
category filter.  A transaction whose date does not parse is excluded under
every month filter, and with no month filter the month stage keeps every
transaction. -/
theorem filters_compose (host : DateHost) (txns : List Transaction) (mf : Str)
    (cf : Option Str) :
    getFilteredTxns cf (monthFilteredTxns host mf txns) =
      txns.filter (fun t => decide (InView host mf cf t)) ∧
    List.Sublist (getFilteredTxns cf (monthFilteredTxns host mf txns)) txns ∧
    (∀ t ∈ txns, parseDateSmart host.parse t.date = none → mf ≠ [] →
      t ∉ getFilteredTxns cf (monthFilteredTxns host mf txns)) ∧
    monthFilteredTxns host [] txns = txns ∧
    getFilteredTxns none (monthFilteredTxns host [] txns) = txns := by
  have hmain : getFilteredTxns cf (monthFilteredTxns host mf txns) =
      txns.filter (fun t => decide (InView host mf cf t)) := by
    rw [getFilteredTxns_eq_filter, monthFilteredTxns_eq_filter, List.filter_filter]
    apply List.filter_congr
    intro t _
    unfold InView
    by_cases h1 : (mf = [] ∨ ∃ d, parseDateSmart host.parse t.date = some d ∧
        yyyymm host d = mf) <;>
      by_cases h2 : (cf = none ∨ cf = some [] ∨ cf = some (catKey t)) <;>
      simp only [h1, h2, decide_True, decide_False, Bool.and_self, Bool.and_false,
        Bool.and_true, and_self, and_false, and_true]
  refine ⟨hmain, ?_, ?_, ?_, ?_⟩
  · rw [hmain]
    exact List.filter_sublist _
  · intro t _ hd hmf hin
    rw [hmain] at hin
    have hv : InView host mf cf t := by simpa using (List.mem_filter.mp hin).2
    rcases hv.1 with h | ⟨d, h, _⟩
    · exact hmf h
    · rw [hd] at h; cases h
  · simp [monthFilteredTxns]
  · simp [monthFilteredTxns, getFilteredTxns]

/-- C16, witness: under month filter `2024-03` and category filter `FOOD`,
of four transactions only the March one in `FOOD` is in view; the one whose
date `garbage` does not parse is excluded. -/
theorem filters_march_food :
    getFilteredTxns (some "FOOD".toList)
      (monthFilteredTxns ⟨fun _ => none, fun d => d.year, fun d => d.monthIndex⟩
        "2024-03".toList
        [⟨"15/03/2024".toList, JsNum.fin 4, "cafe".toList, some "FOOD".toList⟩,
         ⟨"garbage".toList, JsNum.fin 5, "cafe".toList, some "FOOD".toList⟩,
         ⟨"16/03/2024".toList, JsNum.fin 6, "bus".toList, some "TRAVEL".toList⟩,
         ⟨"15/04/2024".toList, JsNum.fin 7, "cafe".toList, some "FOOD".toList⟩]) =
      [⟨"15/03/2024".toList, JsNum.fin 4, "cafe".toList, some "FOOD".toList⟩] ∧
    (⟨"garbage".toList, JsNum.fin 5, "cafe".toList, some "FOOD".toList⟩ : Transaction) ∉
      getFilteredTxns (some "FOOD".toList)
        (monthFilteredTxns ⟨fun _ => none, fun d => d.year, fun d => d.monthIndex⟩
          "2024-03".toList
          [⟨"15/03/2024".toList, JsNum.fin 4, "cafe".toList, some "FOOD".toList⟩,
           ⟨"garbage".toList, JsNum.fin 5, "cafe".toList, some "FOOD".toList⟩,
           ⟨"16/03/2024".toList, JsNum.fin 6, "bus".toList, some "TRAVEL".toList⟩,
           ⟨"15/04/2024".toList, JsNum.fin 7, "cafe".toList, some "FOOD".toList⟩]) :=
  ⟨by decide,
   (filters_compose ⟨fun _ => none, fun d => d.year, fun d => d.monthIndex⟩ _
      "2024-03".toList (some "FOOD".toList)).2.2.1 _ (by decide) (by decide) (by decide)⟩

/-! ### Percentages -/

theorem sum_percent (l : List (Str × ℚ)) (g : ℚ) :
    (l.map (fun r => r.2 / g * 100)).sum = (l.map Prod.snd).sum / g * 100 := by
  induction l with
  | nil => simp
  | cons r l ih =>
    simp only [List.map_cons, List.sum_cons, ih]
    ring

theorem grand_eq_sum_rows (txns : List Transaction) :
    (computeCategoryTotals txns).grand =
      ((computeCategoryTotals txns).rows.map Prod.snd).sum := by
  simp [computeCategoryTotals, foldl_add_snd]

/-- C17: for every transaction list whose grand total is non-zero, the
percentages `total / grand * 100` of all rows of `computeCategoryTotals` sum
to exactly 100; when the grand total is 0 the guard on `grand` makes every
row's percentage 0 without dividing. -/
theorem percentages_sum_to_100 (txns : List Transaction) :
    ((computeCategoryTotals txns).grand ≠ 0 →
      ((computeCategoryTotals txns).rows.map
        (fun r => percentOf (computeCategoryTotals txns).grand r.2)).sum = 100) ∧
    ((computeCategoryTotals txns).grand = 0 →
      ∀ r ∈ (computeCategoryTotals txns).rows,
        percentOf (computeCategoryTotals txns).grand r.2 = 0) := by
  constructor
  · intro hg
    have e : (fun r : Str × ℚ => percentOf (computeCategoryTotals txns).grand r.2) =
        (fun r => r.2 / (computeCategoryTotals txns).grand * 100) := by
      funext r
      simp [percentOf, hg]
    rw [e, sum_percent, ← grand_eq_sum_rows, div_self hg]
    norm_num
  · intro hg r _
    simp [percentOf, hg]

/-- C17, witness: rows `A` 75 and `B` 25 have grand total 100 and their
percentages sum to 100; with grand total 0 the percentage is 0. -/
theorem percentages_75_25 :
    (computeCategoryTotals
      [⟨[], JsNum.fin 100, [], some "A".toList⟩, ⟨[], JsNum.fin (-25), [], some "A".toList⟩,
        ⟨[], JsNum.fin 25, [], some "B".toList⟩]).rows = [("A".toList, 75), ("B".toList, 25)] ∧
    ((computeCategoryTotals
      [⟨[], JsNum.fin 100, [], some "A".toList⟩, ⟨[], JsNum.fin (-25), [], some "A".toList⟩,
        ⟨[], JsNum.fin 25, [], some "B".toList⟩]).rows.map
        (fun r => percentOf (computeCategoryTotals
          [⟨[], JsNum.fin 100, [], some "A".toList⟩, ⟨[], JsNum.fin (-25), [], some "A".toList⟩,
            ⟨[], JsNum.fin 25, [], some "B".toList⟩]).grand r.2)).sum = 100 ∧
    percentOf 0 75 = 0 :=
  ⟨by decide!, (percentages_sum_to_100 _).1 (by decide!), by decide!⟩

/-! ### Loading: the failure path -/

/-- C18: for every prior session state, tokenizer and host, when tokenization
of the trimmed CSV text yields zero rows, `loadCsvText` sets the status text
to `Load failed: No rows found`, leaves the transactions, the rules, both
filters, the current page and the rule text unchanged, and returns the
previous transaction list. -/
theorem loadCsvText_no_rows_is_atomic (tokenize : Str → Char → List (List Str))
    (host : DateHost) (csvText : Str) (s : Session)
    (h : tokenize (trim csvText) (detectDelimiter csvText) = []) :
    (loadCsvText tokenize host csvText s).1.loadStatus = "Load failed: No rows found".toList ∧
    (loadCsvText tokenize host csvText s).1.CURRENT_TXNS = s.CURRENT_TXNS ∧
    (loadCsvText tokenize host csvText s).1.CURRENT_RULES = s.CURRENT_RULES ∧
    (loadCsvText tokenize host csvText s).1.CURRENT_FILTER = s.CURRENT_FILTER ∧
    (loadCsvText tokenize host csvText s).1.MONTH_FILTER = s.MONTH_FILTER ∧
    (loadCsvText tokenize host csvText s).1.CURRENT_PAGE = s.CURRENT_PAGE ∧
    (loadCsvText tokenize host csvText s).1.rulesBox = s.rulesBox ∧
    (loadCsvText tokenize host csvText s).2 = s.CURRENT_TXNS := by
  have e : loadCsvText tokenize host csvText s =
      ({ s with loadStatus := "Load failed: No rows found".toList }, s.CURRENT_TXNS) := by
    unfold loadCsvText
    simp only [h]
    rfl
  rw [e]
  exact ⟨rfl, rfl, rfl, rfl, rfl, rfl, rfl, rfl⟩

/-- C18, witness: a blank CSV text whose tokenization has no rows leaves a
session with one transaction, one rule and both filters as it was, apart from
the status text. -/
theorem loadCsvText_blank_text :
    (loadCsvText (fun _ _ => []) ⟨fun _ => none, fun d => d.year, fun d => d.monthIndex⟩
      "   ".toList
      ⟨[⟨"15/03/2024".toList, JsNum.fin 4, "cafe".toList, some "FOOD".toList⟩],
        [⟨"cafe".toList, "FOOD".toList⟩], some "FOOD".toList, "2024-03".toList, some 1,
        "Loaded 1 transactions".toList, "cafe => FOOD".toList⟩) =
      (⟨[⟨"15/03/2024".toList, JsNum.fin 4, "cafe".toList, some "FOOD".toList⟩],
        [⟨"cafe".toList, "FOOD".toList⟩], some "FOOD".toList, "2024-03".toList, some 1,
        "Load failed: No rows found".toList, "cafe => FOOD".toList⟩,
       [⟨"15/03/2024".toList, JsNum.fin 4, "cafe".toList, some "FOOD".toList⟩]) ∧
    (loadCsvText (fun _ _ => []) ⟨fun _ => none, fun d => d.year, fun d => d.monthIndex⟩
      "   ".toList
      ⟨[⟨"15/03/2024".toList, JsNum.fin 4, "cafe".toList, some "FOOD".toList⟩],
        [⟨"cafe".toList, "FOOD".toList⟩], some "FOOD".toList, "2024-03".toList, some 1,
        "Loaded 1 transactions".toList, "cafe => FOOD".toList⟩).1.loadStatus =
      "Load failed: No rows found".toList :=
  ⟨by decide,
   (loadCsvText_no_rows_is_atomic (fun _ _ => [])
      ⟨fun _ => none, fun d => d.year, fun d => d.monthIndex⟩ "   ".toList _ rfl).1⟩

/-! ### Keyword matching: keywords without tokens -/

theorem isWhitespace_toLower (c : Char) (h : isWhitespace c = false) :
    isWhitespace c.toLower = false := by
  by_cases hr : c.toNat ≥ 65 ∧ c.toNat ≤ 90
  · have h1 : c.toLower = Char.ofNat (c.toNat + 32) := by simp [Char.toLower, hr]
    have h2 : (Char.ofNat (c.toNat + 32)).toNat = c.toNat + 32 :=
      char_toNat_ofNat _ (by omega)
    rw [h1]
    unfold isWhitespace
    rw [h2]
    simp only [List.mem_cons, List.mem_singleton, List.not_mem_nil, or_false,
      decide_eq_false_iff_not]
    omega
  · have h1 : c.toLower = c := by simp only [Char.toLower]; rw [if_neg hr]
    rw [h1]; exact h

theorem trim_has_non_whitespace (x : Str) (h : trim x ≠ []) :
    ∃ c ∈ trim x, isWhitespace c = false := by
  refine ⟨(trim x).getLast h, List.getLast_mem h, ?_⟩
  have := List.rdropWhile_last_not isWhitespace (x.dropWhile isWhitespace) h
  simpa [trim] using this

theorem keywordParts_ne_nil_of_non_whitespace (k : Str)
    (h : ∃ c ∈ k, isWhitespace c = false) : keywordParts k ≠ [] := by
  intro hk
  obtain ⟨c, hc, hw⟩ := h
  have hf := (keywordParts_tokens k).2
  rw [hk] at hf
  have hmem : c ∈ k.filter (fun c => !isWhitespace c) :=
    List.mem_filter.mpr ⟨hc, by simp [hw]⟩
  rw [← hf] at hmem
  simp at hmem

theorem mem_parseRules (text : Str) (r : Rule) :
    r ∈ parseRules text ↔ ∃ line ∈ splitLines text, ruleOfLine line = some r := by
  unfold parseRules
  rw [foldl_pushRule, List.nil_append, List.mem_filterMap]

theorem ruleOfLine_keyword (line : Str) (r : Rule) (h : ruleOfLine line = some r) :
    ∃ b : Str, r.keyword = toLowerCase (trim b) ∧ trim b ≠ [] := by
  unfold ruleOfLine at h
  simp only [] at h
  split_ifs at h with h1 h2 h3
  cases h
  refine ⟨(splitArrow (trim line))[0]?.getD [], rfl, ?_⟩
  intro he
  apply h3.1
  simp [he, toLowerCase]

/-- C19 as stated fails for a keyword of whitespace only: the keyword of one
blank is a non-empty string, so the guard `!keywordLower` does not fire; it
has no tokens, the loop body never runs, and `matchesKeyword` returns true. -/
theorem matchesKeyword_blank_keyword_matches :
    keywordParts " ".toList = [] ∧ matchesKeyword "abc".toList " ".toList = true := by
  decide

/-- C19, amended: for every description `d`, `matchesKeyword d ""` is false;
a non-empty keyword without tokens (whitespace only) matches every
description; and no rule produced by `parseRules` has such a keyword: every
rule keyword has at least one token. -/
theorem matchesKeyword_empty_keyword (d : Str) :
    matchesKeyword d [] = false ∧
    (∀ k : Str, k ≠ [] → keywordParts k = [] → matchesKeyword d k = true) ∧
    (∀ (text : Str) (r : Rule), r ∈ parseRules text → keywordParts r.keyword ≠ []) := by
  refine ⟨rfl, ?_, ?_⟩
  · intro k hk hp
    unfold matchesKeyword
    rw [if_neg hk, hp]
    rfl
  · intro text r hr
    obtain ⟨line, _, hl⟩ := (mem_parseRules text r).mp hr
    obtain ⟨b, hb, hne⟩ := ruleOfLine_keyword line r hl
    obtain ⟨c, hc, hw⟩ := trim_has_non_whitespace b hne
    apply keywordParts_ne_nil_of_non_whitespace
    refine ⟨c.toLower, ?_, isWhitespace_toLower c hw⟩
    rw [hb]
    exact List.mem_map_of_mem _ hc

/-- C19, witness: the empty keyword does not match `abc`, the keyword of two
blanks does, and the keyword parsed from the rule line `cafe => FOOD` has a
token. -/
theorem matchesKeyword_empty_and_blank :
    matchesKeyword "abc".toList [] = false ∧
    matchesKeyword "abc".toList "  ".toList = true ∧
    keywordParts "cafe".toList ≠ [] :=
  ⟨(matchesKeyword_empty_keyword "abc".toList).1,
   (matchesKeyword_empty_keyword "abc".toList).2.1 "  ".toList (by decide) (by decide),
   (matchesKeyword_empty_keyword "abc".toList).2.2 "cafe => FOOD".toList
     ⟨"cafe".toList, "FOOD".toList⟩ (by decide)⟩

/-! ### Rule parsing: the category of a line -/

theorem cutAtArrow_cons (c : Char) (rest : Str)
    (h : ∀ r : Str, c = '=' → rest = '>' :: r → False) :
    cutAtArrow (c :: rest) =
      match cutAtArrow rest with
      | some (before, after) => some (c :: before, after)
      | none => none := by
  rw [cutAtArrow]
  exact h

theorem cutAtArrow_append (K C : Str) (hK : cutAtArrow K = none) :
    cutAtArrow (K ++ '=' :: '>' :: C) = some (K, C) := by
  induction K with
  | nil => simp [cutAtArrow]
  | cons c rest ih =>
    have hpat : ∀ r : Str, c = '=' → rest = '>' :: r → False := by
      intro r h1 h2
      subst h1 h2
      simp [cutAtArrow] at hK
    rw [cutAtArrow_cons c rest hpat] at hK
    have hrest : cutAtArrow rest = none := by
      cases h : cutAtArrow rest with
      | none => rfl
      | some ba => rw [h] at hK; cases hK
    have hpat2 : ∀ r : Str, c = '=' → rest ++ '=' :: '>' :: C = '>' :: r → False := by
      intro r h1 h2
      cases rest with
      | nil =>
        simp only [List.nil_append, List.cons.injEq] at h2
        exact absurd h2.1 (by decide)
      | cons x rest2 =>
        simp only [List.cons_append, List.cons.injEq] at h2
        exact hpat rest2 h1 (by rw [h2.1])
    rw [List.cons_append, cutAtArrow_cons c _ hpat2, ih hrest]

theorem toLowerCase_eq_nil (x : Str) : toLowerCase x = [] ↔ x = [] := by
  simp [toLowerCase]

theorem toUpperCase_eq_nil (x : Str) : toUpperCase x = [] ↔ x = [] := by
  simp [toUpperCase]

/-- C20 as stated fails: the rule line `pay => FOOD => EXTRA` is `K => C` with
`K = pay` and `C = FOOD => EXTRA`, `K` has no `=>` and both trimmed parts are
non-empty; `parseRules` gives the category `FOOD`, the text up to the next
`=>`, not `FOOD => EXTRA`. -/
theorem parseRules_category_stops_at_next_arrow :
    trim "pay => FOOD => EXTRA".toList = "pay ".toList ++ '=' :: '>' :: " FOOD => EXTRA".toList ∧
    cutAtArrow "pay ".toList = none ∧
    toLowerCase (trim "pay ".toList) = "pay".toList ∧
    toUpperCase (trim " FOOD => EXTRA".toList) = "FOOD => EXTRA".toList ∧
    parseRules "pay => FOOD => EXTRA".toList = [⟨"pay".toList, "FOOD".toList⟩] ∧
    (⟨"pay".toList, "FOOD => EXTRA".toList⟩ : Rule) ∉ parseRules "pay => FOOD => EXTRA".toList := by
  decide

/-- C20, amended: for every line whose trimmed text is `K` followed by `=>`
followed by `C`, where `K` contains no `=>`, the trimmed text does not start
with `#` and the trimmed `K` is non-empty, the line gives the rule with
keyword `lower(trim(K))` and category `upper(trim(C1))`, where `C1` is `C` up
to its first `=>` (all of `C` when `C` contains none), provided the trimmed
`C1` is non-empty; when it is empty the line gives no rule.  The rule is
among the rules `parseRules` returns for any text that has the line. -/
theorem ruleOfLine_category_up_to_next_arrow (line K C : Str)
    (ht : trim line = K ++ '=' :: '>' :: C) (hK : cutAtArrow K = none)
    (hh : (trim line).head? ≠ some '#') (hk : trim K ≠ []) :
    ruleOfLine line =
      (if trim (upToArrow C) = [] then none
        else some ⟨toLowerCase (trim K), toUpperCase (trim (upToArrow C))⟩) ∧
    (cutAtArrow C = none → upToArrow C = C) ∧
    (∀ text : Str, line ∈ splitLines text → trim (upToArrow C) ≠ [] →
      (⟨toLowerCase (trim K), toUpperCase (trim (upToArrow C))⟩ : Rule) ∈ parseRules text) := by
  have hne : trim line ≠ [] := by
    rw [ht]
    cases K <;> simp
  have hrule : ruleOfLine line =
      (if trim (upToArrow C) = [] then none
        else some ⟨toLowerCase (trim K), toUpperCase (trim (upToArrow C))⟩) := by
    rw [ruleOfLine_eq_cut]
    unfold ruleOfLineCut
    simp only []
    rw [if_neg hne, if_neg hh, ht, cutAtArrow_append K C hK]
    simp only [toLowerCase_eq_nil, toUpperCase_eq_nil, hk, false_or]
  refine ⟨hrule, ?_, ?_⟩
  · intro hC
    unfold upToArrow
    rw [hC]
  · intro text hl hc
    rw [mem_parseRules]
    refine ⟨line, hl, ?_⟩
    rw [hrule, if_neg hc]

/-- C20, witness: `pay => FOOD => EXTRA` gives the rule `pay` to `FOOD`, and
`pay => FOOD` gives the same rule, its category being all of the text after
the separator. -/
theorem ruleOfLine_pay_food :
    ruleOfLine "pay => FOOD => EXTRA".toList = some ⟨"pay".toList, "FOOD".toList⟩ ∧
    ruleOfLine "pay => FOOD".toList = some ⟨"pay".toList, "FOOD".toList⟩ ∧
    upToArrow " FOOD".toList = " FOOD".toList := by
  have h1 := ruleOfLine_category_up_to_next_arrow "pay => FOOD => EXTRA".toList "pay ".toList
    " FOOD => EXTRA".toList (by decide) (by decide) (by decide) (by decide)
  have h2 := ruleOfLine_category_up_to_next_arrow "pay => FOOD".toList "pay ".toList
    " FOOD".toList (by decide) (by decide) (by decide) (by decide)
  refine ⟨?_, ?_, h2.2.1 (by decide)⟩
  · rw [h1.1]; decide
  · rw [h2.1]; decide

end SpendLite
